import Mathlib

/-!
Verification of the Quantum repository (Deutsch.py, Deutsch-Jozsa.py, Grover.py).

The scripts simulate quantum circuits with dense complex matrices (qutip/numpy).
Every scalar the three scripts ever produce lies in the real subfield ℚ(√2):
the qubit/gate entries are rationals and `1/√2 = (1/2)·√2`, and the ring ℚ(√2)
is closed under the tensor products and matrix multiplications the scripts use.
We therefore embed the floating-point arithmetic of the source exactly, as the
ring `Q2` of numbers `a + b·√2` with `a b : ℚ`, which has decidable equality
and a decidable linear order.  Vectors and matrices are lists of lists of `Q2`,
mirroring the dense numpy/qutip representation (the linear-algebra substrate is
an external collaborator of the repository; we implement exactly the operations
the scripts consume: tensor product, matrix multiplication, argmax/argmin).
-/

/-- Structurally recursive floor of the base-2 logarithm (`fuel ≥ n` makes it
total): the exact value of Python's `int(math.log(n, 2))` on the power-of-two
lengths the scripts use. -/
def log2fuel : Nat → Nat → Nat
  | 0, _ => 0
  | fuel + 1, n => if n ≤ 1 then 0 else log2fuel fuel (n / 2) + 1

/-- `⌊log₂ n⌋` (and `log2N 0 = 0`). -/
def log2N (n : Nat) : Nat := log2fuel n n

/-- `⌈log₂ m⌉` (and `0` for `m ≤ 1`): the exact value of Python's
`math.ceil(math.log(m, 2))`. -/
def clog2N (m : Nat) : Nat := if m ≤ 1 then 0 else log2N (m - 1) + 1

/-- Structurally recursive integer square root by downward search:
`isqrtAux k n` is the largest `j ≤ k` with `j² ≤ n`. -/
def isqrtAux : Nat → Nat → Nat
  | 0, _ => 0
  | k + 1, n => if (k + 1) * (k + 1) ≤ n then k + 1 else isqrtAux k n

/-- `⌊√n⌋`. -/
def isqrtN (n : Nat) : Nat := isqrtAux n n

/-- The ring ℚ(√2): the value `⟨a, b⟩` denotes the real number `a + b·√2`.
All amplitudes and matrix entries of the three scripts live here. -/
@[ext]
structure Q2 where
  a : ℚ
  b : ℚ
deriving DecidableEq

namespace Q2

def add (x y : Q2) : Q2 := ⟨x.a + y.a, x.b + y.b⟩

def neg (x : Q2) : Q2 := ⟨-x.a, -x.b⟩

/-- `(a₁ + b₁√2)(a₂ + b₂√2) = (a₁a₂ + 2b₁b₂) + (a₁b₂ + b₁a₂)√2`. -/
def mul (x y : Q2) : Q2 := ⟨x.a * y.a + 2 * x.b * y.b, x.a * y.b + x.b * y.a⟩

/-- Embedding of the rationals. -/
def ofRat (q : ℚ) : Q2 := ⟨q, 0⟩

instance : Zero Q2 := ⟨⟨0, 0⟩⟩
instance : One Q2 := ⟨⟨1, 0⟩⟩
instance : Add Q2 := ⟨add⟩
instance : Neg Q2 := ⟨neg⟩
instance : Mul Q2 := ⟨mul⟩

@[simp] theorem add_a (x y : Q2) : (x + y).a = x.a + y.a := rfl
@[simp] theorem add_b (x y : Q2) : (x + y).b = x.b + y.b := rfl
@[simp] theorem neg_a (x : Q2) : (-x).a = -x.a := rfl
@[simp] theorem neg_b (x : Q2) : (-x).b = -x.b := rfl
@[simp] theorem mul_a (x y : Q2) : (x * y).a = x.a * y.a + 2 * x.b * y.b := rfl
@[simp] theorem mul_b (x y : Q2) : (x * y).b = x.a * y.b + x.b * y.a := rfl
@[simp] theorem zero_a : (0 : Q2).a = 0 := rfl
@[simp] theorem zero_b : (0 : Q2).b = 0 := rfl
@[simp] theorem one_a : (1 : Q2).a = 1 := rfl
@[simp] theorem one_b : (1 : Q2).b = 0 := rfl

instance : NatCast Q2 := ⟨fun n => ⟨(n : ℚ), 0⟩⟩
instance : IntCast Q2 := ⟨fun n => ⟨(n : ℚ), 0⟩⟩

@[simp] theorem natCast_a (n : ℕ) : ((n : Q2)).a = (n : ℚ) := rfl
@[simp] theorem natCast_b (n : ℕ) : ((n : Q2)).b = 0 := rfl
@[simp] theorem intCast_a (n : ℤ) : ((n : Q2)).a = (n : ℚ) := rfl
@[simp] theorem intCast_b (n : ℤ) : ((n : Q2)).b = 0 := rfl

instance : CommRing Q2 where
  add_assoc x y z := by ext <;> simp <;> ring
  zero_add x := by ext <;> simp
  add_zero x := by ext <;> simp
  add_comm x y := by ext <;> simp <;> ring
  left_distrib x y z := by ext <;> simp <;> ring
  right_distrib x y z := by ext <;> simp <;> ring
  zero_mul x := by ext <;> simp
  mul_zero x := by ext <;> simp
  mul_assoc x y z := by ext <;> simp <;> ring
  one_mul x := by ext <;> simp
  mul_one x := by ext <;> simp
  mul_comm x y := by ext <;> simp <;> ring
  neg_add_cancel x := by ext <;> simp
  natCast n := (n : Q2)
  natCast_zero := by ext <;> simp
  natCast_succ n := by ext <;> simp
  intCast n := (n : Q2)
  intCast_ofNat n := by ext <;> simp
  intCast_negSucc n := by ext <;> simp [Int.cast_negSucc]
  nsmul := nsmulRec
  zsmul := zsmulRec

/-- Decides `0 ≤ a + b·√2` exactly: when `a` and `b` have opposite signs the
comparison reduces to comparing `a²` with `2b²` (squaring the irrational side). -/
def nonneg (x : Q2) : Bool :=
  if 0 ≤ x.a then
    if 0 ≤ x.b then true else decide (2 * x.b ^ 2 ≤ x.a ^ 2)
  else
    if x.b ≤ 0 then false else decide (x.a ^ 2 ≤ 2 * x.b ^ 2)

/-- `x ≤ y` on the real values `a + b√2`. -/
def ble (x y : Q2) : Bool := nonneg (y + (-x))

/-- `x < y` on the real values (total order on ℚ(√2), so `x < y ↔ ¬ y ≤ x`). -/
def blt (x y : Q2) : Bool := ! ble y x

/-- Absolute value, mirroring numpy `abs` on real floats. -/
def babs (x : Q2) : Q2 := if nonneg x then x else -x

/-- Exact floor of `a + b√2`: writing `x = (u + v√2)/w` over a common positive
denominator `w`, `⌊x⌋ = ⌊(u + ⌊v√2⌋)/w⌋`, and `⌊v√2⌋ = ⌊√(2v²)⌋` is `Nat.sqrt`
(adjusted for negative `v`, where `2v²` is never a perfect square). -/
def floor (x : Q2) : Int :=
  let u : Int := x.a.num * (x.b.den : Int)
  let v : Int := x.b.num * (x.a.den : Int)
  let w : Int := ((x.a.den * x.b.den : Nat) : Int)
  let s : Int :=
    if 0 ≤ v then ((isqrtN (2 * v.natAbs ^ 2) : Nat) : Int)
    else -(((isqrtN (2 * v.natAbs ^ 2) : Nat) : Int) + 1)
  Int.fdiv (u + s) w

/-- Python 3 `round` (banker's rounding: ties go to the even integer),
idealised on exact values of ℚ(√2). -/
def pyRound (x : Q2) : Int :=
  let f : Int := floor x
  let frac : Q2 := x + (-(ofRat (f : ℚ)))
  let half : Q2 := ofRat (1 / 2)
  if blt frac half then f
  else if blt half frac then f + 1
  else if f % 2 = 0 then f else f + 1

end Q2

/-!
## Linear-algebra substrate

The scripts consume a dense linear-algebra library (qutip/numpy).  We model a
matrix as a list of rows (a column vector is an `n × 1` matrix, exactly as
qutip kets are), and provide the operations the scripts use: matrix product,
Kronecker (tensor) product, and the flattening argmax/argmin of numpy.
-/

/-- A dense matrix over ℚ(√2): a list of rows. -/
def Mat : Type := List (List Q2)

instance : DecidableEq Mat := inferInstanceAs (DecidableEq (List (List Q2)))

instance : Membership (List Q2) Mat :=
  inferInstanceAs (Membership (List Q2) (List (List Q2)))

/-- Dot product of two rows. -/
def dot (u v : List Q2) : Q2 := (List.zipWith (· * ·) u v).sum

/-- Transpose (for well-formed rectangular matrices). -/
def transposeM (A : Mat) : Mat :=
  (List.range (A.headD []).length).map (fun j => A.map (fun row => row.getD j 0))

/-- Matrix product: row `i` of `A*B` is the vector of dot products of row `i`
of `A` against the columns of `B`. -/
def matMul (A B : Mat) : Mat :=
  let Bt := transposeM B
  A.map (fun ra => Bt.map (fun cb => dot ra cb))

/-- Kronecker (tensor) product, exactly qutip's `tensor`: block `(i,j)` of the
result is `A i j • B`. -/
def tensorM (A B : Mat) : Mat :=
  A.flatMap (fun ra => B.map (fun rb => ra.flatMap (fun x => rb.map (fun y => x * y))))

/-- The `X = None; for g in gs: X = tensor(X, g) if X else g` folding pattern
that all three scripts use to combine per-qubit gates and kets.  On an empty
list it returns the `1 × 1` identity (the tensor unit; the scripts never hit
this case with a gate list that stays `None`). -/
def tensorAll : List Mat → Mat
  | [] => [[1]]
  | m :: ms => ms.foldl tensorM m

/-- An `m × m` matrix given by an entry function. -/
def genMat (m : Nat) (f : Nat → Nat → Q2) : Mat :=
  (List.range m).map (fun r => (List.range m).map (f r))

/-- The `m × m` identity matrix. -/
def idM (m : Nat) : Mat := genMat m (fun r c => if r = c then 1 else 0)

/-- Entrywise negation of a matrix. -/
def negM (A : Mat) : Mat := A.map (fun row => row.map (fun x => -x))

/-- Flatten a matrix row-major (numpy argmax/argmin flatten their argument). -/
def flatten (A : Mat) : List Q2 := A.flatMap id

/-- Sum of squares of all entries (for the unit-norm property: all amplitudes
in the scripts are real, so the squared magnitude of an entry is its square). -/
def normSq (A : Mat) : Q2 :=
  (A.map (fun row => (row.map (fun x => x * x)).sum)).sum

/-- Index of the first occurrence of the largest value (numpy `argmax`). -/
def argmaxL (l : List Q2) : Nat :=
  (l.foldl (fun st x =>
      if (st.2.2).blt x then (st.1 + 1, st.1, x) else (st.1 + 1, st.2.1, st.2.2))
    ((0 : Nat), (0 : Nat), l.headD 0)).2.1

/-- Index of the first occurrence of the smallest value (numpy `argmin`). -/
def argminL (l : List Q2) : Nat :=
  (l.foldl (fun st x =>
      if x.blt st.2.2 then (st.1 + 1, st.1, x) else (st.1 + 1, st.2.1, st.2.2))
    ((0 : Nat), (0 : Nat), l.headD 0)).2.1

/-- The `|0⟩` ket. -/
def ket0 : Mat := [[1], [0]]

/-- The `|1⟩` ket. -/
def ket1 : Mat := [[0], [1]]

/-- qutip `qeye(2)`. -/
def qeye2 : Mat := [[1, 0], [0, 1]]

/-- qutip `sigmax()`. -/
def sigmax : Mat := [[0, 1], [1, 0]]

/-- qutip `hadamard_transform(1) = (1/√2)·[[1,1],[1,-1]]`; `1/√2 = (1/2)·√2`. -/
def hadamard : Mat :=
  [[⟨0, 1/2⟩, ⟨0, 1/2⟩], [⟨0, 1/2⟩, ⟨0, -(1/2)⟩]]

/-- qutip `cnot()` (control on the first qubit). -/
def cnotM : Mat :=
  [[1, 0, 0, 0], [0, 1, 0, 0], [0, 0, 0, 1], [0, 0, 1, 0]]

/-!
## Grover.py

Part One (input-string generation), Part Two (qubits and gates), Part Three
(circuit execution) and Part Four (result interpretation).  Strings are lists
of characters; `random.randint` draws are passed in as parameters (numpy's
`randint(lo, hi)` samples the half-open range `[lo, hi)`); float `math.log` /
`math.ceil(math.log(·,2))` are idealised as the exact `Nat.log2` / `Nat.clog 2`.
-/

namespace Grover

/-- numpy `binary_repr m w` for `0 ≤ m < 2^w`: the `w`-digit binary string of
`m`, most significant digit first. -/
def binary_repr (m w : Nat) : List Char :=
  (List.range w).map (fun i => if m / 2 ^ (w - 1 - i) % 2 = 1 then '1' else '0')

/-- Python `str.find('1')`: index of the first `'1'`, `-1` if there is none. -/
def find1 (s : List Char) : Int :=
  match s.findIdx? (fun c => c = '1') with
  | some i => (i : Int)
  | none => -1

/-- `needle_random(max)` after the two draws `k = random.randint(1, max)` and
`pos = random.randint(0, 2^k - 1)` (numpy: `k ∈ [1, max)`, `pos ∈ [0, 2^k-1)`):
the all-`'0'` string of length `2^k` with the `pos`-th character replaced by
`'1'` via slicing. -/
def needle_random (k pos : Nat) : List Char :=
  let random_length := 2 ^ k
  let s0 := List.replicate random_length '0'
  s0.take pos ++ '1' :: s0.drop (pos + 1)

/-- `needle_explicit`. -/
def needle_explicit (input_string : List Char) : List Char := input_string

/-- Python `int(s, 2)` on a binary string. -/
def parseBin2 (s : List Char) : Nat :=
  s.foldl (fun acc c => 2 * acc + (if c = '1' then 1 else 0)) 0

/-- `needle_binary(binary_needle_position)`: decode the position, round the
length up to the next power of two, and build `'0'*d + '1' + '0'*(len-d-1)`. -/
def needle_binary (binary_needle_position : List Char) : List Char :=
  let d := parseBin2 binary_needle_position
  let input_string_length := 2 ^ clog2N (d + 1)
  List.replicate d '0' ++ '1' :: List.replicate (input_string_length - d - 1) '0'

/-- `needle_decimal(decimal_needle_position)`: same construction from a
decimal position. -/
def needle_decimal (d : Nat) : List Char :=
  let input_string_length := 2 ^ clog2N (d + 1)
  List.replicate d '0' ++ '1' :: List.replicate (input_string_length - d - 1) '0'

/-- The `input` dictionary of `needle_init`. -/
structure GInput where
  string : List Char
  string_length : Nat
  required_qubits : Nat

/-- The `needle` dictionary of `needle_init`. -/
structure GNeedle where
  position : Int
  binary : List Char
  binary_length : Nat

/-- `needle_init(input_string)`. -/
def needle_init (s : List Char) : GInput × GNeedle :=
  let input_string_length := s.length
  let required_qubits := log2N input_string_length
  let needle_position := find1 s
  let needle_bin := binary_repr needle_position.toNat required_qubits
  (⟨s, input_string_length, required_qubits⟩,
   ⟨needle_position, needle_bin, needle_bin.length⟩)

/-- The combined register `Q` of `circuit()` (also Deutsch-Jozsa's): the tensor
product of `n` kets `|0⟩` followed by the control ket `|1⟩`. -/
def registerQ (n : Nat) : Mat :=
  tensorAll (List.replicate n ket0 ++ [ket1])

/-- `uf1()`: the mark operator `UfXI` from the needle's binary digits (`'0'` ↦
`X`, `'1'` ↦ `I`, trailing `I` for the control), the `CxNOT` with identity
pairs everywhere except a swapped bottom-right `2×2` block, composed as
`UfXI * CxNOT * UfXI`. -/
def uf1 (string_length : Nat) (needle_bin : List Char) : Mat :=
  let UfXI := tensorM
    (tensorAll (needle_bin.map (fun c => if c = '0' then sigmax else qeye2))) qeye2
  let CxNOT := genMat (string_length * 2) (fun r c =>
    if r = c ∧ r < string_length * 2 - 2 then 1
    else if (r = string_length * 2 - 1 ∧ c = string_length * 2 - 2) ∨
            (r = string_length * 2 - 2 ∧ c = string_length * 2 - 1) then 1
    else 0)
  matMul (matMul UfXI CxNOT) UfXI

/-- The index a row is paired with by the direct oracle: `2i ↔ 2i+1`. -/
def partner (r : Nat) : Nat := if r % 2 = 0 then r + 1 else r - 1

/-- `uf2()` (also Deutsch-Jozsa's `Uf` construction, which is the identical
loop): for each position `i` of the string, a `'0'` puts `1` at `(2i,2i)` and
`(2i+1,2i+1)`, a `'1'` puts `1` at `(2i+1,2i)` and `(2i,2i+1)`. -/
def uf2 (s : List Char) : Mat :=
  genMat (s.length * 2) (fun r c =>
    if s.getD (r / 2) '0' = '0' then (if c = r then 1 else 0)
    else (if c = partner r then 1 else 0))

/-- `dif1()`: `HxI * XxI * CxZI * XxI * HxI`, where `CxZI` is the
`string_length × string_length` diagonal `(1,…,1,-1)` tensored with the control
identity. -/
def dif1 (string_length required_qubits : Nat) : Mat :=
  let HxI := tensorM (tensorAll (List.replicate required_qubits hadamard)) qeye2
  let XxI := tensorM (tensorAll (List.replicate required_qubits sigmax)) qeye2
  let CxZI := tensorM
    (genMat string_length (fun r c =>
      if r = c then (if r = string_length - 1 then -1 else 1) else 0)) qeye2
  matMul (matMul (matMul (matMul HxI XxI) CxZI) XxI) HxI

/-- `dif2()`: `(-I + 2A) ⊗ I` with `A` the uniform `2^n × 2^n` matrix with
every entry `1/2^n`. -/
def dif2 (required_qubits : Nat) : Mat :=
  tensorM
    (genMat (2 ^ required_qubits) (fun r c =>
      Q2.ofRat ((if r = c then -1 else 0) + 2 * (1 / 2 ^ required_qubits)))) qeye2

/-- The dictionary returned by `circuit(input, needle)`.  The script sets
`Uf = uf1()` and `Dif = dif1()` (the `uf2`/`dif2` alternatives are provided
but not selected). -/
structure GCircuit where
  Q : Mat
  H : Mat
  Uf : Mat
  Dif : Mat
  IxH : Mat
  IxX : Mat

/-- `circuit(input, needle)`. -/
def circuit (input : GInput) (needle : GNeedle) : GCircuit :=
  let n := input.required_qubits
  let Q := registerQ n
  let H := tensorAll (List.replicate (n + 1) hadamard)
  let Uf := uf1 input.string_length needle.binary
  let Dif := dif1 input.string_length n
  let IxH := tensorM (tensorAll (List.replicate n qeye2)) hadamard
  let IxX := tensorM (tensorAll (List.replicate n qeye2)) sigmax
  ⟨Q, H, Uf, Dif, IxH, IxX⟩

/-- `repeat(required_qubits) = int((pi/4) * sqrt(2**required_qubits))` as a
relational specification over the exact reals: the truncated value (the value
is positive, so truncation is the floor) is the unique `r` with
`r ≤ (π/4)·√(2^n) < r + 1`. -/
def repeatSpec (n r : Nat) : Prop :=
  (r : ℝ) ≤ Real.pi / 4 * Real.sqrt (2 ^ n) ∧
    Real.pi / 4 * Real.sqrt (2 ^ n) < (r : ℝ) + 1

/-- The `for i in range(repeat)` loop of `run_circuit`: each pass applies `Uf`
then `Dif` to the current state. -/
def grover_iterate (c : GCircuit) : Nat → Mat → Mat
  | 0, st => st
  | k + 1, st => grover_iterate c k (matMul c.Dif (matMul c.Uf st))

/-- `run_circuit(circuit, repeat)`: Hadamard everything, the Grover iteration
`repeat` times, then `IxX * IxH * state`. -/
def run_circuit (c : GCircuit) (rep : Nat) : Mat :=
  let current_state := matMul c.H c.Q
  let current_state2 := grover_iterate c rep current_state
  matMul (matMul c.IxX c.IxH) current_state2

/-- The decoded needle position computed by `results(...)`: the standout basis
index — whichever of argmax/argmin has the larger absolute amplitude (ties go
to argmin, since the comparison is strict) — integer-divided by 2. -/
def resultsPosition (current_state : Mat) : Nat :=
  let flat := flatten current_state
  let max_state := argmaxL flat
  let max_state_value := (flat.getD max_state 0).babs
  let min_state := argminL flat
  let min_state_value := (flat.getD min_state 0).babs
  let result := if min_state_value.blt max_state_value then max_state else min_state
  result / 2

/-- The self-check of `results(...)`: `"(confirmed)"` iff the decoded position
equals `input['string'].find('1')`, otherwise `"(error)"`. -/
def resultsConfirmed (input : GInput) (current_state : Mat) : Bool :=
  ((resultsPosition current_state : Int) == find1 input.string)

/-- The whole pipeline on an input string, for a given iteration count:
`needle_init`, `circuit`, `run_circuit`. -/
def pipeline (s : List Char) (rep : Nat) : Mat :=
  let p := needle_init s
  run_circuit (circuit p.1 p.2) rep

end Grover

/-- The valid Grover input of length `L` with the needle at position `p`:
`p` zeros, one `'1'`, then `L - p - 1` zeros. -/
def oneHot (L p : Nat) : List Char :=
  List.replicate p '0' ++ '1' :: List.replicate (L - p - 1) '0'

/-!
## Deutsch.py
-/

namespace Deutsch

/-- The `Uf` table of `Deutsch.py circuit`: four fixed 2-qubit oracles selected
by the 2-character input string; an unrecognized string prints an error and
raises `SystemExit`, modelled as `none`. -/
def ufTable (input_string : List Char) : Option Mat :=
  if input_string = ['0', '0'] then some (tensorM qeye2 qeye2)
  else if input_string = ['1', '1'] then some (tensorM qeye2 sigmax)
  else if input_string = ['0', '1'] then some cnotM
  else if input_string = ['1', '0'] then some (matMul cnotM (tensorM qeye2 sigmax))
  else none

/-- `circuit(input_string)`: `result = HI * Uf * HH * Q` with `Q = |0⟩⊗|1⟩`,
`HH = H⊗H`, `HI = H⊗I`; `none` on an unrecognized input string. -/
def circuit (input_string : List Char) : Option (List Char × Mat) :=
  match ufTable input_string with
  | none => none
  | some Uf =>
    let Q := tensorM ket0 ket1
    let HH := tensorM hadamard hadamard
    let HI := tensorM hadamard qeye2
    some (input_string, matMul (matMul (matMul HI Uf) HH) Q)

/-- The five possible interpretation outputs of `Deutsch.py results`. -/
inductive Outcome where
  | constantConfirmed
  | constantMismatch
  | balancedConfirmed
  | balancedMismatch
  | unable
deriving DecidableEq

/-- `results(input_string, result)`: round the probability of the top qubit
being `|0⟩` (entries 0,1 squared and summed) resp. `|1⟩` (entries 2,3); decode
`Constant` when the former is 1, `Balanced` when the latter is 1, and compare
with the function encoded in the input string; anything else is the
"unable to interpret" error. -/
def results (input_string : List Char) (result : Mat) : Outcome :=
  let r := flatten result
  let probability_00_01 := Q2.pyRound (r.getD 0 0 * r.getD 0 0 + r.getD 1 0 * r.getD 1 0)
  let probability_10_11 := Q2.pyRound (r.getD 2 0 * r.getD 2 0 + r.getD 3 0 * r.getD 3 0)
  if probability_00_01 = 1 then
    (if input_string = ['0', '0'] ∨ input_string = ['1', '1'] then .constantConfirmed
     else .constantMismatch)
  else if probability_10_11 = 1 then
    (if input_string = ['1', '0'] ∨ input_string = ['0', '1'] then .balancedConfirmed
     else .balancedMismatch)
  else .unable

/-- The probability the interpreter assigns to the top-qubit-`|0⟩` partition,
before rounding (entries 0 and 1 of the final state, squared and summed). -/
def prob00or01 (result : Mat) : Q2 :=
  let r := flatten result
  r.getD 0 0 * r.getD 0 0 + r.getD 1 0 * r.getD 1 0

/-- The probability assigned to the top-qubit-`|1⟩` partition before rounding. -/
def prob10or11 (result : Mat) : Q2 :=
  let r := flatten result
  r.getD 2 0 * r.getD 2 0 + r.getD 3 0 * r.getD 3 0

end Deutsch

/-!
## Deutsch-Jozsa.py
-/

namespace DJ

/-- `Deutsch-Jozsa.py circuit(input_string)`: the register and Hadamard
combinations are the same loops as Grover's (`n` data qubits from
`log2(len)`, one control), `Uf` is the identical direct zero-matrix
construction as Grover's `uf2`, and `result = HI * Uf * H * Q`. -/
def circuit (input_string : List Char) : List Char × Mat :=
  let input_string_length := input_string.length
  let required_qubits := log2N input_string_length
  let Q := Grover.registerQ required_qubits
  let H := tensorAll (List.replicate (required_qubits + 1) hadamard)
  let HI := tensorM (tensorAll (List.replicate required_qubits hadamard)) qeye2
  let Uf := Grover.uf2 input_string
  (input_string, matMul (matMul (matMul HI Uf) H) Q)

/-- The four possible interpretation outputs of `Deutsch-Jozsa.py results`. -/
inductive Outcome where
  | constantConfirmed
  | constantError
  | balancedConfirmed
  | balancedError
deriving DecidableEq

/-- `results(input_string, result)`, interpretation part: decode `constant`
when entry 0 or entry 1 of the final state exceeds 0.5, `balanced` otherwise;
then the script's own self-check against the input string, with its literal
conditions: `constant` is confirmed iff the string is all-`'1'` or all-`'0'`,
while the `balanced` branch tests `input != '1'*len or input != '0'*len`. -/
def results (input_string : List Char) (result : Mat) : Outcome :=
  let r := flatten result
  let all1 := List.replicate input_string.length '1'
  let all0 := List.replicate input_string.length '0'
  if Q2.blt (Q2.ofRat (1 / 2)) (r.getD 0 0) || Q2.blt (Q2.ofRat (1 / 2)) (r.getD 1 0) then
    (if input_string = all1 ∨ input_string = all0 then .constantConfirmed
     else .constantError)
  else
    (if input_string ≠ all1 ∨ input_string ≠ all0 then .balancedConfirmed
     else .balancedError)

end DJ

/-!
## Closed-form machinery

The gate constructions of the scripts are all tensor products, permutation
matrices and rank-one perturbations of the identity.  We prove closed forms
for them as `genR`-matrices (matrices described by an entry function on index
ranges), which lets every circuit identity be settled by index algebra instead
of brute-force arithmetic.
-/

/-- An `m × n` matrix given by an entry function. -/
def genR (m n : Nat) (f : Nat → Nat → Q2) : Mat :=
  (List.range m).map (fun r => (List.range n).map (f r))

/-- Finite sum `f 0 + ⋯ + f (m-1)`. -/
def sumR (m : Nat) (f : Nat → Q2) : Q2 := ((List.range m).map f).sum

theorem genMat_eq_genR (m : Nat) (f : Nat → Nat → Q2) : genMat m f = genR m m f := rfl

theorem idM_eq_genR (m : Nat) : idM m = genR m m (fun r c => if r = c then 1 else 0) := rfl

theorem sumR_zero (f : Nat → Q2) : sumR 0 f = 0 := rfl

theorem sumR_succ (m : Nat) (f : Nat → Q2) : sumR (m + 1) f = sumR m f + f m := by
  simp [sumR, List.range_succ]

theorem sumR_congr {m : Nat} {f g : Nat → Q2} (h : ∀ k, k < m → f k = g k) :
    sumR m f = sumR m g := by
  unfold sumR
  exact congrArg List.sum (List.map_congr_left (fun k hk => h k (List.mem_range.mp hk)))

theorem sumR_add (m : Nat) (f g : Nat → Q2) :
    sumR m (fun k => f k + g k) = sumR m f + sumR m g := by
  induction m with
  | zero => simp [sumR_zero]
  | succ m ih => simp only [sumR_succ, ih]; ring

theorem sumR_neg (m : Nat) (f : Nat → Q2) : sumR m (fun k => -f k) = -sumR m f := by
  induction m with
  | zero => simp [sumR_zero]
  | succ m ih => simp only [sumR_succ, ih]; ring

theorem sumR_mul_left (m : Nat) (c : Q2) (f : Nat → Q2) :
    sumR m (fun k => c * f k) = c * sumR m f := by
  induction m with
  | zero => simp [sumR_zero]
  | succ m ih => simp only [sumR_succ, ih]; ring

theorem sumR_const (m : Nat) (c : Q2) : sumR m (fun _ => c) = (m : Q2) * c := by
  induction m with
  | zero => simp [sumR_zero]
  | succ m ih => simp only [sumR_succ, ih]; push_cast; ring

/-- A sum of a function supported at a single index. -/
theorem sumR_single (m j : Nat) (f : Nat → Q2) (hj : j < m)
    (h : ∀ k, k < m → k ≠ j → f k = 0) : sumR m f = f j := by
  induction m with
  | zero => omega
  | succ m ih =>
    rw [sumR_succ]
    rcases Nat.lt_or_ge j m with hjm | hjm
    · rw [ih hjm (fun k hk hkj => h k (Nat.lt_succ_of_lt hk) hkj),
        h m (Nat.lt_succ_self m) (by omega)]
      ring
    · have hjm2 : j = m := by omega
      subst hjm2
      have : sumR j f = sumR j (fun _ => 0) := sumR_congr (fun k hk => h k (by omega) (by omega))
      rw [this, sumR_const]
      ring

/-- Splitting a sum over `a + b` indices. -/
theorem sumR_add_split (a b : Nat) (F : Nat → Q2) :
    sumR (a + b) F = sumR a F + sumR b (fun j => F (a + j)) := by
  induction b with
  | zero => simp [sumR_zero]
  | succ b ih => rw [Nat.add_succ, sumR_succ, sumR_succ, ih]; ring

/-- Splitting a sum over `n * q` indices as a double sum (`k = q*i + j`). -/
theorem sumR_factor (n q : Nat) (F : Nat → Q2) :
    sumR (n * q) F = sumR n (fun i => sumR q (fun j => F (q * i + j))) := by
  induction n with
  | zero => simp [sumR_zero]
  | succ n ih =>
    have hr : (n + 1) * q = n * q + q := by ring
    rw [hr, sumR_add_split, ih, sumR_succ]
    have : (fun j => F (n * q + j)) = fun j => F (q * n + j) := by
      funext j; rw [Nat.mul_comm]
    rw [this]

theorem getD_map_range {n j : Nat} (f : Nat → Q2) (d : Q2) :
    ((List.range n).map f).getD j d = if j < n then f j else d := by
  rcases Nat.lt_or_ge j n with h | h
  · rw [List.getD_eq_getElem?_getD, List.getElem?_map, List.getElem?_range h]
    simp [h]
  · rw [List.getD_eq_getElem?_getD, List.getElem?_map]
    have : (List.range n)[j]? = none := by
      rw [List.getElem?_eq_none]
      simpa using h
    simp [this, Nat.not_lt.mpr h]

theorem genR_length (m n : Nat) (f : Nat → Nat → Q2) : (genR m n f).length = m := by
  simp [genR]

/-- Two `genR`-matrices with the same shape and entry functions that agree on
the index ranges are equal. -/
theorem genR_congr {m n : Nat} {f g : Nat → Nat → Q2}
    (h : ∀ r c, r < m → c < n → f r c = g r c) : genR m n f = genR m n g := by
  unfold genR
  refine List.map_congr_left (fun r hr => ?_)
  exact List.map_congr_left (fun c hc => h r c (List.mem_range.mp hr) (List.mem_range.mp hc))

/-- Entry functions of equal `genR`-matrices agree on the index ranges. -/
theorem genR_inj {m n : Nat} {f g : Nat → Nat → Q2} (h : genR m n f = genR m n g) :
    ∀ r c, r < m → c < n → f r c = g r c := by
  intro r c hr hc
  have h1 : ((genR m n f).getD r []).getD c 0 = ((genR m n g).getD r []).getD c 0 := by rw [h]
  unfold genR at h1
  have hrow : ∀ (F : Nat → Nat → Q2),
      (((List.range m).map (fun r0 => (List.range n).map (F r0))).getD r []).getD c 0 = F r c := by
    intro F
    have h2 : ((List.range m).map (fun r0 => (List.range n).map (F r0))).getD r [] =
        (List.range n).map (F r) := by
      rw [List.getD_eq_getElem?_getD, List.getElem?_map, List.getElem?_range hr]
      rfl
    rw [h2, getD_map_range, if_pos hc]
  rw [hrow f, hrow g] at h1
  exact h1

theorem transposeM_genR (m n : Nat) (f : Nat → Nat → Q2) (hm : 0 < m) :
    transposeM (genR m n f) = genR n m (fun c r => f r c) := by
  unfold transposeM genR
  obtain ⟨m0, rfl⟩ : ∃ m0, m = m0 + 1 := ⟨m - 1, by omega⟩
  have hhead : (((List.range (m0 + 1)).map
      (fun r => (List.range n).map (f r))).headD []).length = n := by
    rw [List.range_succ_eq_map]
    simp
  rw [hhead]
  refine List.map_congr_left (fun j hj => ?_)
  rw [List.map_map]
  refine List.map_congr_left (fun r _ => ?_)
  simp only [Function.comp]
  rw [getD_map_range, if_pos (List.mem_range.mp hj)]

theorem zipWith_mul_map (l : List Nat) (F G : Nat → Q2) :
    List.zipWith (· * ·) (l.map F) (l.map G) = l.map (fun k => F k * G k) := by
  induction l with
  | nil => rfl
  | cons a l ih => simp only [List.map_cons, List.zipWith_cons_cons, ih]

theorem dot_map_range (n : Nat) (F G : Nat → Q2) :
    dot ((List.range n).map F) ((List.range n).map G) = sumR n (fun k => F k * G k) := by
  unfold dot sumR
  rw [zipWith_mul_map]

/-- The closed form of a matrix product of `genR`-matrices. -/
theorem matMul_genR (m n s : Nat) (hn : 0 < n) (f g : Nat → Nat → Q2) :
    matMul (genR m n f) (genR n s g) =
      genR m s (fun r c => sumR n (fun k => f r k * g k c)) := by
  unfold matMul
  rw [transposeM_genR n s g hn]
  show (genR m n f).map
      (fun ra => (genR s n (fun c r => g r c)).map (fun cb => dot ra cb)) = _
  unfold genR
  rw [List.map_map]
  refine List.map_congr_left (fun r _ => ?_)
  simp only [Function.comp]
  rw [List.map_map]
  refine List.map_congr_left (fun c _ => ?_)
  simp only [Function.comp]
  exact dot_map_range n (f r) (fun k => g k c)

theorem range_flatMap_map {α : Type} (m p : Nat) (F : Nat → Nat → α) :
    (List.range m).flatMap (fun i => (List.range p).map (F i)) =
      (List.range (m * p)).map (fun R => F (R / p) (R % p)) := by
  rcases Nat.eq_zero_or_pos p with hp | hp
  · subst hp
    simp
  · induction m with
    | zero => simp
    | succ m ih =>
      rw [List.range_succ, List.flatMap_append, ih]
      have h1 : (m + 1) * p = m * p + p := by ring
      rw [h1, List.range_add, List.map_append, List.map_map]
      have h2 : List.map ((fun R => F (R / p) (R % p)) ∘ (fun R => m * p + R))
          (List.range p) = List.map (F m) (List.range p) := by
        refine List.map_congr_left (fun j hj => ?_)
        have hjp : j < p := List.mem_range.mp hj
        have hj0 : j / p = 0 := Nat.div_eq_of_lt hjp
        have hd : (m * p + j) / p = m := by
          rw [Nat.add_comm, Nat.add_mul_div_right j m hp, hj0, Nat.zero_add]
        have hm : (m * p + j) % p = j := by
          rw [Nat.add_comm, Nat.add_mul_mod_self_right, Nat.mod_eq_of_lt hjp]
        simp only [Function.comp]
        rw [hd, hm]
      rw [h2]
      simp

/-- The closed form of a Kronecker product of `genR`-matrices. -/
theorem tensorM_genR (m n p q : Nat) (hp : 0 < p) (hq : 0 < q) (f g : Nat → Nat → Q2) :
    tensorM (genR m n f) (genR p q g) =
      genR (m * p) (n * q) (fun r c => f (r / p) (c / q) * g (r % p) (c % q)) := by
  have hrow : ∀ r i, ((List.range n).map (f r)).flatMap
      (fun x => ((List.range q).map (g i)).map (fun y => x * y)) =
      (List.range (n * q)).map (fun C => f r (C / q) * g i (C % q)) := by
    intro r i
    rw [List.flatMap_map]
    have : (fun c => ((List.range q).map (g i)).map (fun y => f r c * y)) =
        fun c => (List.range q).map (fun j => f r c * g i j) := by
      funext c
      rw [List.map_map]
      rfl
    show ((List.range n).flatMap fun c => ((List.range q).map (g i)).map
        (fun y => f r c * y)) = _
    rw [this, range_flatMap_map]
  unfold tensorM genR
  rw [List.flatMap_map]
  show ((List.range m).flatMap fun r =>
      ((List.range p).map (fun i => (List.range q).map (g i))).map
        (fun rb => ((List.range n).map (f r)).flatMap
          (fun x => rb.map (fun y => x * y)))) = _
  have hseg : ∀ r, ((List.range p).map (fun i => (List.range q).map (g i))).map
      (fun rb => ((List.range n).map (f r)).flatMap (fun x => rb.map (fun y => x * y))) =
      (List.range p).map (fun i =>
        (List.range (n * q)).map (fun C => f r (C / q) * g i (C % q))) := by
    intro r
    rw [List.map_map]
    refine List.map_congr_left (fun i _ => ?_)
    exact hrow r i
  have : ((List.range m).flatMap fun r =>
      ((List.range p).map (fun i => (List.range q).map (g i))).map
        (fun rb => ((List.range n).map (f r)).flatMap (fun x => rb.map (fun y => x * y)))) =
      (List.range m).flatMap (fun r => (List.range p).map (fun i =>
        (List.range (n * q)).map (fun C => f r (C / q) * g i (C % q)))) := by
    refine List.flatMap_congr ?_
    intro r _
    exact hseg r
  rw [this, range_flatMap_map]

theorem mul_div_add_div {q k1 k2 : Nat} (hq : 0 < q) (hk2 : k2 < q) :
    (q * k1 + k2) / q = k1 := by
  rw [Nat.mul_comm, Nat.add_comm, Nat.add_mul_div_right k2 k1 hq,
    Nat.div_eq_of_lt hk2, Nat.zero_add]

theorem mul_mod_add_mod {q k1 k2 : Nat} (hk2 : k2 < q) :
    (q * k1 + k2) % q = k2 := by
  rw [Nat.mul_comm, Nat.add_comm, Nat.add_mul_mod_self_right, Nat.mod_eq_of_lt hk2]

/-- The Kronecker mixed-product property `(A ⊗ B)(C ⊗ D) = (AC) ⊗ (BD)`
for `genR`-matrices. -/
theorem mixed_product (m n s p q t : Nat) (hn : 0 < n) (hp : 0 < p) (hq : 0 < q)
    (ht : 0 < t) (f f2 g g2 : Nat → Nat → Q2) :
    matMul (tensorM (genR m n f) (genR p q g)) (tensorM (genR n s f2) (genR q t g2)) =
      tensorM (matMul (genR m n f) (genR n s f2)) (matMul (genR p q g) (genR q t g2)) := by
  rw [tensorM_genR m n p q hp hq f g, tensorM_genR n s q t hq ht f2 g2,
    matMul_genR (m * p) (n * q) (s * t) (Nat.mul_pos hn hq) _ _,
    matMul_genR m n s hn f f2, matMul_genR p q t hq g g2,
    tensorM_genR m s p t hp ht _ _]
  refine genR_congr (fun r c _ _ => ?_)
  rw [sumR_factor n q]
  have h1 : ∀ k1, k1 < n → sumR q (fun k2 =>
      (fun rr cc => f (rr / p) (cc / q) * g (rr % p) (cc % q)) r (q * k1 + k2) *
        (fun rr cc => f2 (rr / q) (cc / t) * g2 (rr % q) (cc % t)) (q * k1 + k2) c) =
      (f (r / p) k1 * f2 k1 (c / t)) *
        sumR q (fun k2 => g (r % p) k2 * g2 k2 (c % t)) := by
    intro k1 _
    rw [← sumR_mul_left]
    refine sumR_congr (fun k2 hk2 => ?_)
    simp only
    rw [mul_div_add_div hq hk2, mul_mod_add_mod hk2]
    ring
  calc sumR n (fun k1 => sumR q fun k2 =>
        (fun rr cc => f (rr / p) (cc / q) * g (rr % p) (cc % q)) r (q * k1 + k2) *
          (fun rr cc => f2 (rr / q) (cc / t) * g2 (rr % q) (cc % t)) (q * k1 + k2) c)
      = sumR n (fun k1 => (f (r / p) k1 * f2 k1 (c / t)) *
          sumR q (fun k2 => g (r % p) k2 * g2 k2 (c % t))) := sumR_congr h1
    _ = sumR n (fun k1 => (sumR q (fun k2 => g (r % p) k2 * g2 k2 (c % t))) *
          (f (r / p) k1 * f2 k1 (c / t))) := sumR_congr (fun k1 _ => mul_comm _ _)
    _ = (sumR q (fun k2 => g (r % p) k2 * g2 k2 (c % t))) *
          sumR n (fun k1 => f (r / p) k1 * f2 k1 (c / t)) := sumR_mul_left n _ _
    _ = (sumR n fun k => f (r / p) k * f2 k (c / t)) *
          sumR q (fun k => g (r % p) k * g2 k (c % t)) := mul_comm _ _

/-- A permutation matrix (row `r` has its `1` in column `π r`). -/
def permM (N : Nat) (pi : Nat → Nat) : Mat :=
  genR N N (fun r c => if c = pi r then 1 else 0)

theorem matMul_permM_left (N s : Nat) (hN : 0 < N) (pi : Nat → Nat)
    (hb : ∀ r, r < N → pi r < N) (g : Nat → Nat → Q2) :
    matMul (permM N pi) (genR N s g) = genR N s (fun r c => g (pi r) c) := by
  unfold permM
  rw [matMul_genR N N s hN _ g]
  refine genR_congr (fun r c hr _ => ?_)
  rw [sumR_single N (pi r) _ (hb r hr) (fun k _ hk => by simp [hk])]
  simp

theorem matMul_permM_right (m N : Nat) (hN : 0 < N) (pi : Nat → Nat)
    (hb : ∀ r, r < N → pi r < N) (hinv : ∀ r, r < N → pi (pi r) = r)
    (f : Nat → Nat → Q2) :
    matMul (genR m N f) (permM N pi) = genR m N (fun r c => f r (pi c)) := by
  unfold permM
  rw [matMul_genR m N N hN f _]
  refine genR_congr (fun r c _ hc => ?_)
  rw [sumR_single N (pi c) _ (hb c hc) ?_]
  · rw [if_pos (hinv c hc).symm, mul_one]
  · intro k hk hkc
    have : c ≠ pi k := by
      intro hck
      exact hkc (by rw [hck, hinv k hk])
    simp [this]

theorem tensorM_idM (a b : Nat) (ha : 0 < a) (hb : 0 < b) :
    tensorM (idM a) (idM b) = idM (a * b) := by
  rw [idM_eq_genR, idM_eq_genR, tensorM_genR a a b b hb hb _ _, idM_eq_genR]
  refine genR_congr (fun r c _ _ => ?_)
  by_cases h : r = c
  · subst h
    simp
  · have : r / b ≠ c / b ∨ r % b ≠ c % b := by
      by_contra hcon
      push_neg at hcon
      refine h ?_
      rw [← Nat.div_add_mod r b, ← Nat.div_add_mod c b, hcon.1, hcon.2]
    rcases this with h1 | h1
    · rw [if_neg h1, if_neg h, zero_mul]
    · rw [if_neg h, if_neg h1, mul_zero]

theorem negM_genR (m n : Nat) (f : Nat → Nat → Q2) :
    negM (genR m n f) = genR m n (fun r c => -f r c) := by
  unfold negM genR
  rw [List.map_map]
  refine List.map_congr_left (fun r _ => ?_)
  simp only [Function.comp]
  rw [List.map_map]
  rfl

/-- Entry function of an iterated Kronecker product of `2 × 2` gates, with the
gate entry functions listed least-significant-qubit first. -/
def entryFoldR : List (Nat → Nat → Q2) → Nat → Nat → Q2
  | [], _, _ => 1
  | G :: Gs, r, c => entryFoldR Gs (r / 2) (c / 2) * G (r % 2) (c % 2)

/-- Identity-gate entry function. -/
def idf : Nat → Nat → Q2 := fun r c => if r = c then 1 else 0

/-- Pauli-X entry function. -/
def xf : Nat → Nat → Q2 := fun r c => if c = 1 - r then 1 else 0

/-- `1/√2` as an element of ℚ(√2). -/
def hQ : Q2 := ⟨0, 1 / 2⟩

/-- Hadamard entry function. -/
def hf : Nat → Nat → Q2 := fun r c => if r = 1 ∧ c = 1 then -hQ else hQ

theorem qeye2_genR : qeye2 = genR 2 2 idf := by decide!

theorem sigmax_genR : sigmax = genR 2 2 xf := by decide!

theorem hadamard_genR : hadamard = genR 2 2 hf := by decide!

theorem tensorM_one_left (A : Mat) : tensorM [[1]] A = A := by
  unfold tensorM
  show A.map (fun rb => [(1 : Q2)].flatMap (fun x => rb.map (fun y => x * y))) ++ [] = A
  rw [List.append_nil]
  have h : ∀ rb : List Q2, [(1 : Q2)].flatMap (fun x => rb.map (fun y => x * y)) = rb := by
    intro rb
    show ((rb.map (fun y => (1 : Q2) * y)) ++ []) = rb
    rw [List.append_nil]
    have : rb.map (fun y => (1 : Q2) * y) = rb.map id := by
      exact List.map_congr_left (fun y _ => one_mul y)
    rw [this, List.map_id]
  rw [List.map_congr_left (fun rb _ => h rb)]
  simp

theorem tensorAll_concat (l : List Mat) (A : Mat) :
    tensorAll (l ++ [A]) = tensorM (tensorAll l) A := by
  cases l with
  | nil => exact (tensorM_one_left A).symm
  | cons m ms =>
    show (ms ++ [A]).foldl tensorM m = tensorM (ms.foldl tensorM m) A
    rw [List.foldl_append]
    rfl

/-- The closed form of the scripts' gate-combining fold: tensoring a list of
`2 × 2` gates gives the `2^k × 2^k` matrix whose entry function folds the gate
entries over the binary digits of the indices. -/
theorem tensorAll_gates (gs : List (Nat → Nat → Q2)) :
    tensorAll (gs.map (fun G => genR 2 2 G)) =
      genR (2 ^ gs.length) (2 ^ gs.length) (entryFoldR gs.reverse) := by
  induction gs using List.reverseRecOn with
  | nil => rfl
  | append_singleton bs G ih =>
    rw [List.map_append, List.map_singleton, tensorAll_concat, ih,
      tensorM_genR _ _ 2 2 (by omega) (by omega) _ _]
    have hlen : (bs ++ [G]).length = bs.length + 1 := by simp
    rw [hlen]
    have hpow : 2 ^ bs.length * 2 = 2 ^ (bs.length + 1) := by
      rw [Nat.pow_succ]
    rw [hpow]
    have hrev : (bs ++ [G]).reverse = G :: bs.reverse := by simp
    rw [hrev]
    rfl

/-- The data-qubit permutation realised by an X/I gate list (list given
least-significant-bit first, `'0'` ↦ X, anything else ↦ I). -/
def permOf : List Char → Nat → Nat
  | [], _ => 0
  | ch :: rest, d => 2 * permOf rest (d / 2) + (if ch = '0' then 1 - d % 2 else d % 2)

theorem permOf_lt (bs : List Char) (d : Nat) : permOf bs d < 2 ^ bs.length := by
  induction bs generalizing d with
  | nil => simp [permOf]
  | cons ch rest ih =>
    show 2 * permOf rest (d / 2) + _ < 2 ^ (rest.length + 1)
    have h1 := ih (d / 2)
    have h2 : (if ch = '0' then 1 - d % 2 else d % 2) < 2 := by
      have := Nat.mod_lt d (y := 2) (by omega)
      split <;> omega
    rw [Nat.pow_succ]
    omega

theorem permOf_invol (bs : List Char) (d : Nat) (hd : d < 2 ^ bs.length) :
    permOf bs (permOf bs d) = d := by
  induction bs generalizing d with
  | nil =>
    have hd0 : d = 0 := by simpa using hd
    subst hd0
    rfl
  | cons ch rest ih =>
    have hlen : (ch :: rest).length = rest.length + 1 := rfl
    rw [hlen, Nat.pow_succ] at hd
    have hb : (if ch = '0' then 1 - d % 2 else d % 2) < 2 := by
      have := Nat.mod_lt d (y := 2) (by omega)
      split <;> omega
    have hp : permOf (ch :: rest) d =
        2 * permOf rest (d / 2) + (if ch = '0' then 1 - d % 2 else d % 2) := rfl
    have hdiv : permOf (ch :: rest) d / 2 = permOf rest (d / 2) := by
      rw [hp]; exact mul_div_add_div (by omega) hb
    have hmod : permOf (ch :: rest) d % 2 = (if ch = '0' then 1 - d % 2 else d % 2) := by
      rw [hp]; exact mul_mod_add_mod hb
    have hq : permOf (ch :: rest) (permOf (ch :: rest) d) =
        2 * permOf rest (permOf (ch :: rest) d / 2) +
          (if ch = '0' then 1 - permOf (ch :: rest) d % 2
           else permOf (ch :: rest) d % 2) := rfl
    rw [hq, hdiv, hmod]
    have hd2 : d / 2 < 2 ^ rest.length := by omega
    rw [ih (d / 2) hd2]
    have hm2 : d % 2 < 2 := Nat.mod_lt d (by omega)
    have hbit : (if ch = '0' then 1 - (if ch = '0' then 1 - d % 2 else d % 2)
        else (if ch = '0' then 1 - d % 2 else d % 2)) = d % 2 := by
      split_ifs <;> omega
    rw [hbit]
    omega

/-- The fold of an X/I gate list is the permutation matrix of `permOf`. -/
theorem entryFoldR_perm (bs : List Char) :
    ∀ r c, r < 2 ^ bs.length → c < 2 ^ bs.length →
      entryFoldR (bs.map (fun ch => if ch = '0' then xf else idf)) r c =
        if c = permOf bs r then 1 else 0 := by
  induction bs with
  | nil =>
    intro r c hr hc
    have hr0 : r = 0 := by simpa using hr
    have hc0 : c = 0 := by simpa using hc
    subst hr0; subst hc0
    rfl
  | cons ch rest ih =>
    intro r c hr hc
    have hlen : (ch :: rest).length = rest.length + 1 := rfl
    rw [hlen, Nat.pow_succ] at hr hc
    show entryFoldR _ (r / 2) (c / 2) * (if ch = '0' then xf else idf) (r % 2) (c % 2) = _
    have hr2 : r / 2 < 2 ^ rest.length := by omega
    have hc2 : c / 2 < 2 ^ rest.length := by omega
    rw [ih (r / 2) (c / 2) hr2 hc2]
    have hrm : r % 2 < 2 := Nat.mod_lt r (by omega)
    have hcm : c % 2 < 2 := Nat.mod_lt c (by omega)
    have hb : (if ch = '0' then 1 - r % 2 else r % 2) < 2 := by
      split <;> omega
    have hsplit : (c = 2 * permOf rest (r / 2) + (if ch = '0' then 1 - r % 2 else r % 2)) ↔
        (c / 2 = permOf rest (r / 2) ∧ c % 2 = (if ch = '0' then 1 - r % 2 else r % 2)) := by
      constructor
      · intro h
        subst h
        exact ⟨mul_div_add_div (by omega) hb, mul_mod_add_mod hb⟩
      · intro h
        obtain ⟨h1, h2⟩ := h
        omega
    have hgoal : permOf (ch :: rest) r =
        2 * permOf rest (r / 2) + (if ch = '0' then 1 - r % 2 else r % 2) := rfl
    rw [hgoal]
    by_cases h1 : c / 2 = permOf rest (r / 2)
    · by_cases h2 : c % 2 = (if ch = '0' then 1 - r % 2 else r % 2)
      · rw [if_pos h1, if_pos (hsplit.mpr ⟨h1, h2⟩), one_mul]
        split_ifs at h2 ⊢ with hch
        · unfold xf
          rw [if_pos h2]
        · unfold idf
          rw [if_pos h2.symm]
      · rw [if_neg (fun hcon => h2 (hsplit.mp hcon).2)]
        have hz : (if ch = '0' then xf else idf) (r % 2) (c % 2) = 0 := by
          split_ifs at h2 ⊢ with hch
          · unfold xf
            rw [if_neg h2]
          · unfold idf
            rw [if_neg (fun h => h2 h.symm)]
        rw [hz, mul_zero]
    · rw [if_neg h1, if_neg (fun hcon => h1 (hsplit.mp hcon).1), zero_mul]

theorem binary_repr_length (p w : Nat) : (Grover.binary_repr p w).length = w := by
  simp [Grover.binary_repr]

theorem binary_repr_succ (p w : Nat) :
    Grover.binary_repr p (w + 1) =
      Grover.binary_repr (p / 2) w ++ [if p % 2 = 1 then '1' else '0'] := by
  unfold Grover.binary_repr
  rw [List.range_succ, List.map_append, List.map_singleton]
  congr 1
  · refine List.map_congr_left (fun i hi => ?_)
    have hiw : i < w := List.mem_range.mp hi
    have h1 : w + 1 - 1 - i = w - i := by omega
    have h2 : w - i = (w - 1 - i) + 1 := by omega
    rw [h1, h2, Nat.pow_succ, Nat.mul_comm, ← Nat.div_div_eq_div_mul]
  · have : w + 1 - 1 - w = 0 := by omega
    rw [this]
    simp

theorem binary_repr_zero (n : Nat) : Grover.binary_repr 0 n = List.replicate n '0' := by
  unfold Grover.binary_repr
  have h : ∀ i ∈ List.range n, (if 0 / 2 ^ (n - 1 - i) % 2 = 1 then '1' else '0') = '0' := by
    intro i _
    norm_num
  rw [List.map_congr_left h]
  simp [List.eq_replicate_iff]

/-- The X/I mark permutation built from the needle's binary digits sends `d`
to the all-ones index `2^n - 1` exactly when `d` is the needle position. -/
theorem permOf_binary (n : Nat) : ∀ p d, p < 2 ^ n → d < 2 ^ n →
    (permOf ((Grover.binary_repr p n).reverse) d = 2 ^ n - 1 ↔ d = p) := by
  induction n with
  | zero =>
    intro p d hp hd
    have hp0 : p = 0 := by simpa using hp
    have hd0 : d = 0 := by simpa using hd
    subst hp0; subst hd0
    simp [Grover.binary_repr, permOf]
  | succ n ih =>
    intro p d hp hd
    rw [binary_repr_succ, List.reverse_append, List.reverse_singleton]
    show (permOf ((if p % 2 = 1 then '1' else '0') :: (Grover.binary_repr (p / 2) n).reverse) d
      = 2 ^ (n + 1) - 1 ↔ d = p)
    have hplen : ((Grover.binary_repr (p / 2) n).reverse).length = n := by
      rw [List.length_reverse, binary_repr_length]
    have hPbound : permOf ((Grover.binary_repr (p / 2) n).reverse) (d / 2) < 2 ^ n := by
      have := permOf_lt ((Grover.binary_repr (p / 2) n).reverse) (d / 2)
      rwa [hplen] at this
    have hstep : permOf ((if p % 2 = 1 then '1' else '0') ::
        (Grover.binary_repr (p / 2) n).reverse) d =
        2 * permOf ((Grover.binary_repr (p / 2) n).reverse) (d / 2) +
          (if (if p % 2 = 1 then '1' else '0') = '0' then 1 - d % 2 else d % 2) := rfl
    rw [hstep]
    have hbit : (if (if p % 2 = 1 then '1' else '0') = '0' then 1 - d % 2 else d % 2) < 2 := by
      split_ifs <;> omega
    have hiff : (2 * permOf ((Grover.binary_repr (p / 2) n).reverse) (d / 2) +
        (if (if p % 2 = 1 then '1' else '0') = '0' then 1 - d % 2 else d % 2) =
          2 ^ (n + 1) - 1) ↔
        (permOf ((Grover.binary_repr (p / 2) n).reverse) (d / 2) = 2 ^ n - 1 ∧
          (if (if p % 2 = 1 then '1' else '0') = '0' then 1 - d % 2 else d % 2) = 1) := by
      have h1 : 0 < 2 ^ n := Nat.pos_pow_of_pos n (by omega)
      rw [Nat.pow_succ]
      omega
    rw [hiff]
    have hd2 : d / 2 < 2 ^ n := by
      rw [Nat.pow_succ] at hd; omega
    have hp2 : p / 2 < 2 ^ n := by
      rw [Nat.pow_succ] at hp; omega
    rw [ih (p / 2) (d / 2) hp2 hd2]
    have hbit2 : ((if (if p % 2 = 1 then '1' else '0') = '0' then 1 - d % 2 else d % 2) = 1) ↔
        d % 2 = p % 2 := by
      have hpm : p % 2 = 0 ∨ p % 2 = 1 := by omega
      have hdm : d % 2 < 2 := Nat.mod_lt d (by omega)
      rcases hpm with h | h <;> rw [h] <;> simp <;> omega
    rw [hbit2]
    omega

/-- The X/I gate combination used by `uf1` is a permutation matrix. -/
theorem tensorAll_XI (bs : List Char) :
    tensorAll (bs.map (fun ch => if ch = '0' then sigmax else qeye2)) =
      permM (2 ^ bs.length) (permOf bs.reverse) := by
  have h1 : bs.map (fun ch => if ch = '0' then sigmax else qeye2) =
      (bs.map (fun ch => if ch = '0' then xf else idf)).map (fun G => genR 2 2 G) := by
    rw [List.map_map]
    refine List.map_congr_left (fun ch _ => ?_)
    simp only [Function.comp]
    split_ifs
    · exact sigmax_genR
    · exact qeye2_genR
  rw [h1, tensorAll_gates, List.length_map]
  unfold permM
  have h2 : (bs.map (fun ch => if ch = '0' then xf else idf)).reverse =
      bs.reverse.map (fun ch => if ch = '0' then xf else idf) := by
    rw [List.map_reverse]
  rw [h2]
  refine genR_congr (fun r c hr hc => ?_)
  have hlr : (bs.reverse).length = bs.length := List.length_reverse bs
  exact entryFoldR_perm bs.reverse r c (by rw [hlr]; exact hr) (by rw [hlr]; exact hc)

/-- Tensoring a permutation matrix with the `2 × 2` identity doubles the
permutation on index pairs. -/
theorem tensorM_permM_qeye (L : Nat) (hL : 0 < L) (P : Nat → Nat) (hP : ∀ d, P d < L) :
    tensorM (permM L P) qeye2 =
      permM (2 * L) (fun r => 2 * P (r / 2) + r % 2) := by
  rw [qeye2_genR]
  unfold permM
  rw [tensorM_genR L L 2 2 (by omega) (by omega) _ _]
  have hdim : L * 2 = 2 * L := Nat.mul_comm L 2
  rw [hdim]
  refine genR_congr (fun r c hr hc => ?_)
  show (if c / 2 = P (r / 2) then (1 : Q2) else 0) * (if r % 2 = c % 2 then (1 : Q2) else 0) =
    if c = 2 * P (r / 2) + r % 2 then 1 else 0
  by_cases h1 : c / 2 = P (r / 2)
  · by_cases h2 : r % 2 = c % 2
    · have heq : c = 2 * P (r / 2) + r % 2 := by omega
      rw [if_pos h1, if_pos h2, if_pos heq, one_mul]
    · have hneq : c ≠ 2 * P (r / 2) + r % 2 := by omega
      rw [if_pos h1, if_neg h2, if_neg hneq, mul_zero]
  · have hneq : c ≠ 2 * P (r / 2) + r % 2 := by omega
    rw [if_neg h1, if_neg hneq, zero_mul]

/-- The pair-swap permutation of the direct oracle `uf2`. -/
def sigmaOf (s : List Char) (r : Nat) : Nat :=
  if s.getD (r / 2) '0' = '0' then r else Grover.partner r

/-- `uf2` is the permutation matrix of `sigmaOf`. -/
theorem uf2_permM (s : List Char) :
    Grover.uf2 s = permM (s.length * 2) (sigmaOf s) := by
  unfold Grover.uf2 permM sigmaOf Grover.partner
  rw [genMat_eq_genR]
  refine genR_congr (fun r c _ _ => ?_)
  by_cases h : s.getD (r / 2) '0' = '0'
  · rw [if_pos h, if_pos h]
  · rw [if_neg h, if_neg h]

theorem oneHot_length (L p : Nat) (hp : p < L) : (oneHot L p).length = L := by
  simp [oneHot]
  omega

theorem oneHot_getD (L p i : Nat) (hp : p < L) :
    (oneHot L p).getD i '0' = if i = p then '1' else '0' := by
  unfold oneHot
  rcases Nat.lt_trichotomy i p with h | h | h
  · rw [if_neg (by omega), List.getD_eq_getElem?_getD, List.getElem?_append,
      if_pos (by simpa using h), List.getElem?_replicate, if_pos h]
    rfl
  · subst h
    rw [if_pos rfl, List.getD_eq_getElem?_getD, List.getElem?_append,
      if_neg (by simp), List.length_replicate, Nat.sub_self, List.getElem?_cons_zero]
    rfl
  · rw [if_neg (by omega), List.getD_eq_getElem?_getD, List.getElem?_append,
      if_neg (by simp; omega), List.length_replicate]
    obtain ⟨k, hk⟩ : ∃ k, i - p = k + 1 := ⟨i - p - 1, by omega⟩
    rw [hk, List.getElem?_cons_succ, List.getElem?_replicate]
    split_ifs <;> rfl

theorem findIdx_oneHot (L p : Nat) (hp : p < L) : ∀ i,
    (oneHot L p).findIdx? (fun c => c = '1') i = some (i + p) := by
  induction p generalizing L with
  | zero =>
    intro i
    unfold oneHot
    rw [List.replicate_zero, List.nil_append, List.findIdx?_cons, if_pos (by decide)]
    rw [Nat.add_zero]
  | succ p ih =>
    intro i
    have hcons : oneHot L (p + 1) = '0' :: oneHot (L - 1) p := by
      unfold oneHot
      rw [List.replicate_succ, List.cons_append]
      have h2 : L - (p + 1) - 1 = L - 1 - p - 1 := by omega
      rw [h2]
    rw [hcons, List.findIdx?_cons, if_neg (by decide), ih (L - 1) (by omega) (i + 1)]
    congr 1
    omega

theorem find1_oneHot (L p : Nat) (hp : p < L) : Grover.find1 (oneHot L p) = (p : Int) := by
  unfold Grover.find1
  rw [findIdx_oneHot L p hp 0]
  show ((0 + p : Nat) : Int) = (p : Int)
  rw [Nat.zero_add]

/-- The compositional oracle `uf1` (mark · CxNOT · mark) equals the direct
oracle `uf2` on every single-needle input: conjugating the bottom-block swap
of `CxNOT` by the X/I mark permutation moves the swapped pair to the
needle's index pair. -/
theorem uf1_eq_uf2 (n p : Nat) (hp : p < 2 ^ n) :
    Grover.uf1 (2 ^ n) (Grover.binary_repr p n) = Grover.uf2 (oneHot (2 ^ n) p) := by
  have hL : 0 < 2 ^ n := Nat.pos_pow_of_pos n (by omega)
  have hlen : ((Grover.binary_repr p n).reverse).length = n := by
    rw [List.length_reverse, binary_repr_length]
  set P := permOf ((Grover.binary_repr p n).reverse) with hPdef
  have hPlt : ∀ d, P d < 2 ^ n := by
    intro d
    have := permOf_lt ((Grover.binary_repr p n).reverse) d
    rwa [hlen] at this
  have hPinv : ∀ d, d < 2 ^ n → P (P d) = d := by
    intro d hd
    exact permOf_invol _ d (by rwa [hlen])
  have hPkey : ∀ d, d < 2 ^ n → (P d = 2 ^ n - 1 ↔ d = p) :=
    fun d hd => permOf_binary n p d hp hd
  have hUfXI : tensorM (tensorAll ((Grover.binary_repr p n).map
      (fun c => if c = '0' then sigmax else qeye2))) qeye2 =
      permM (2 * 2 ^ n) (fun r => 2 * P (r / 2) + r % 2) := by
    rw [tensorAll_XI, binary_repr_length]
    exact tensorM_permM_qeye (2 ^ n) hL _ hPlt
  have hPi_lt : ∀ r, r < 2 * 2 ^ n → (fun r => 2 * P (r / 2) + r % 2) r < 2 * 2 ^ n := by
    intro r _
    have h1 := hPlt (r / 2)
    simp only
    omega
  have hPi_inv : ∀ r, r < 2 * 2 ^ n →
      (fun r => 2 * P (r / 2) + r % 2) ((fun r => 2 * P (r / 2) + r % 2) r) = r := by
    intro r hr
    have hrm : r % 2 < 2 := Nat.mod_lt r (by omega)
    simp only
    have hdiv : (2 * P (r / 2) + r % 2) / 2 = P (r / 2) := mul_div_add_div (by omega) hrm
    have hmod : (2 * P (r / 2) + r % 2) % 2 = r % 2 := mul_mod_add_mod hrm
    rw [hdiv, hmod, hPinv (r / 2) (by omega)]
    omega
  simp only [Grover.uf1]
  rw [hUfXI, genMat_eq_genR]
  have hdim : 2 ^ n * 2 = 2 * 2 ^ n := Nat.mul_comm _ 2
  rw [hdim]
  rw [matMul_permM_left (2 * 2 ^ n) (2 * 2 ^ n) (by omega) _ hPi_lt _]
  rw [matMul_permM_right (2 * 2 ^ n) (2 * 2 ^ n) (by omega) _ hPi_lt hPi_inv _]
  rw [uf2_permM, oneHot_length (2 ^ n) p hp, hdim]
  unfold permM
  refine genR_congr (fun r c hr hc => ?_)
  have hr2 : r / 2 < 2 ^ n := by omega
  have hc2 : c / 2 < 2 ^ n := by omega
  have hrm : r % 2 < 2 := Nat.mod_lt r (by omega)
  have hcm : c % 2 < 2 := Nat.mod_lt c (by omega)
  have hrdm : r = 2 * (r / 2) + r % 2 := by omega
  have hcdm : c = 2 * (c / 2) + c % 2 := by omega
  have hsig : sigmaOf (oneHot (2 ^ n) p) r =
      if r / 2 = p then Grover.partner r else r := by
    unfold sigmaOf
    rw [oneHot_getD (2 ^ n) p (r / 2) hp]
    by_cases h : r / 2 = p
    · rw [if_pos h, if_pos h]
      simp
    · rw [if_neg h, if_neg h, if_pos rfl]
  rw [hsig]
  have hpart : Grover.partner r = if r % 2 = 0 then r + 1 else r - 1 := rfl
  by_cases hrp : r / 2 = p
  · have hPr : P (r / 2) = 2 ^ n - 1 := (hPkey (r / 2) hr2).mpr hrp
    rw [if_pos hrp, hPr]
    have hC1 : ¬(2 * (2 ^ n - 1) + r % 2 = 2 * P (c / 2) + c % 2 ∧
        2 * (2 ^ n - 1) + r % 2 < 2 * 2 ^ n - 2) := by
      rintro ⟨_, hlt⟩
      omega
    rw [if_neg hC1]
    by_cases hc : c = Grover.partner r
    · rw [if_pos hc]
      rw [hpart] at hc
      have hcp : c / 2 = p := by
        rcases (by omega : r % 2 = 0 ∨ r % 2 = 1) with h0 | h0 <;>
          rw [h0] at hc <;> simp at hc <;> omega
      have hPc : P (c / 2) = 2 ^ n - 1 := (hPkey (c / 2) hc2).mpr hcp
      rw [hPc]
      rcases (by omega : r % 2 = 0 ∨ r % 2 = 1) with h0 | h0
      · have hcv : c % 2 = 1 := by
          rw [h0] at hc
          simp at hc
          omega
        rw [if_pos (Or.inr ⟨by omega, by omega⟩)]
      · have hcv : c % 2 = 0 := by
          rw [h0] at hc
          simp at hc
          omega
        rw [if_pos (Or.inl ⟨by omega, by omega⟩)]
    · rw [if_neg hc]
      have hC2 : ¬((2 * (2 ^ n - 1) + r % 2 = 2 * 2 ^ n - 1 ∧
          2 * P (c / 2) + c % 2 = 2 * 2 ^ n - 2) ∨
          (2 * (2 ^ n - 1) + r % 2 = 2 * 2 ^ n - 2 ∧
          2 * P (c / 2) + c % 2 = 2 * 2 ^ n - 1)) := by
        rintro (⟨h1, h2⟩ | ⟨h1, h2⟩)
        · have hPc : P (c / 2) = 2 ^ n - 1 := by omega
          have hcp : c / 2 = p := (hPkey (c / 2) hc2).mp hPc
          refine hc ?_
          rw [hpart]
          have : r % 2 = 1 := by omega
          rw [if_neg (by omega)]
          omega
        · have hPc : P (c / 2) = 2 ^ n - 1 := by omega
          have hcp : c / 2 = p := (hPkey (c / 2) hc2).mp hPc
          refine hc ?_
          rw [hpart]
          have : r % 2 = 0 := by omega
          rw [if_pos this]
          omega
      rw [if_neg hC2]
  · have hPr_ne : P (r / 2) ≠ 2 ^ n - 1 := fun h => hrp ((hPkey (r / 2) hr2).mp h)
    have hPr_lt : P (r / 2) < 2 ^ n := hPlt (r / 2)
    have hPir_lt : 2 * P (r / 2) + r % 2 < 2 * 2 ^ n - 2 := by omega
    rw [if_neg hrp]
    by_cases hc : c = r
    · subst hc
      rw [if_pos ⟨rfl, hPir_lt⟩, if_pos rfl]
    · have hC1 : ¬(2 * P (r / 2) + r % 2 = 2 * P (c / 2) + c % 2 ∧
          2 * P (r / 2) + r % 2 < 2 * 2 ^ n - 2) := by
        rintro ⟨heq, _⟩
        have h1 : P (r / 2) = P (c / 2) := by omega
        have h2 : r % 2 = c % 2 := by omega
        have h3 : r / 2 = c / 2 := by
          have := congrArg P h1
          rwa [hPinv (r / 2) hr2, hPinv (c / 2) hc2] at this
        exact hc (by omega)
      have hC2 : ¬((2 * P (r / 2) + r % 2 = 2 * 2 ^ n - 1 ∧
          2 * P (c / 2) + c % 2 = 2 * 2 ^ n - 2) ∨
          (2 * P (r / 2) + r % 2 = 2 * 2 ^ n - 2 ∧
          2 * P (c / 2) + c % 2 = 2 * 2 ^ n - 1)) := by
        rintro (⟨h1, _⟩ | ⟨h1, _⟩) <;> omega
      rw [if_neg hC1, if_neg hC2, if_neg (fun h => hc h)]

/-- Entry function of the `n`-fold Hadamard tensor power. -/
def HadF (k : Nat) : Nat → Nat → Q2 := entryFoldR (List.replicate k hf)

theorem tensorAll_replicate_gate (g : Mat) (G : Nat → Nat → Q2) (hg : g = genR 2 2 G)
    (k : Nat) : tensorAll (List.replicate k g) =
      genR (2 ^ k) (2 ^ k) (entryFoldR (List.replicate k G)) := by
  have h1 : List.replicate k g = (List.replicate k G).map (fun G0 => genR 2 2 G0) := by
    rw [List.map_replicate, hg]
  rw [h1, tensorAll_gates, List.length_replicate, List.reverse_replicate]

theorem genR_entryFoldR_succ (G : Nat → Nat → Q2) (k : Nat) :
    tensorM (genR (2 ^ k) (2 ^ k) (entryFoldR (List.replicate k G))) (genR 2 2 G) =
      genR (2 ^ (k + 1)) (2 ^ (k + 1)) (entryFoldR (List.replicate (k + 1) G)) := by
  rw [tensorM_genR _ _ 2 2 (by omega) (by omega) _ _]
  have hpow : 2 ^ k * 2 = 2 ^ (k + 1) := by rw [Nat.pow_succ]
  rw [hpow]
  rfl

theorem hf_sq : matMul (genR 2 2 hf) (genR 2 2 hf) = idM 2 := by decide!

theorem idf_sq : matMul (genR 2 2 idf) (genR 2 2 idf) = idM 2 := by decide!

/-- The combined Hadamard is an involution: `H̄ · H̄ = I`. -/
theorem hadF_sq (k : Nat) :
    matMul (genR (2 ^ k) (2 ^ k) (HadF k)) (genR (2 ^ k) (2 ^ k) (HadF k)) =
      idM (2 ^ k) := by
  induction k with
  | zero => decide!
  | succ k ih =>
    unfold HadF
    rw [← genR_entryFoldR_succ hf k]
    rw [mixed_product (2 ^ k) (2 ^ k) (2 ^ k) 2 2 2
      (Nat.pos_pow_of_pos k (by omega)) (by omega) (by omega) (by omega) _ _ _ _]
    unfold HadF at ih
    rw [ih, hf_sq, tensorM_idM (2 ^ k) 2 (Nat.pos_pow_of_pos k (by omega)) (by omega),
      Nat.pow_succ]

theorem hadF_col0 (k : Nat) : ∀ r, HadF k r 0 = hQ ^ k := by
  induction k with
  | zero => intro r; rfl
  | succ k ih =>
    intro r
    show HadF k (r / 2) (0 / 2) * hf (r % 2) (0 % 2) = hQ ^ (k + 1)
    have h0 : (0 : Nat) / 2 = 0 := rfl
    rw [h0, ih (r / 2)]
    have hhf : hf (r % 2) (0 % 2) = hQ := by
      unfold hf
      rw [if_neg (by omega)]
    rw [hhf, pow_succ]

theorem hadF_row0 (k : Nat) : ∀ c, HadF k 0 c = hQ ^ k := by
  induction k with
  | zero => intro c; rfl
  | succ k ih =>
    intro c
    show HadF k (0 / 2) (c / 2) * hf (0 % 2) (c % 2) = hQ ^ (k + 1)
    have h0 : (0 : Nat) / 2 = 0 := rfl
    rw [h0, ih (c / 2)]
    have hhf : hf (0 % 2) (c % 2) = hQ := by
      unfold hf
      rw [if_neg (by omega)]
    rw [hhf, pow_succ]

theorem hadF_col1 (k : Nat) (r : Nat) :
    HadF (k + 1) r 1 = (if r % 2 = 1 then -(hQ ^ (k + 1)) else hQ ^ (k + 1)) := by
  show HadF k (r / 2) (1 / 2) * hf (r % 2) (1 % 2) = _
  have h0 : (1 : Nat) / 2 = 0 := rfl
  rw [h0, hadF_col0 k (r / 2)]
  by_cases h : r % 2 = 1
  · have hhf : hf (r % 2) (1 % 2) = -hQ := by
      unfold hf
      rw [if_pos ⟨h, rfl⟩]
    rw [hhf, if_pos h, pow_succ]
    ring
  · have hhf : hf (r % 2) (1 % 2) = hQ := by
      unfold hf
      rw [if_neg (fun hcon => h hcon.1)]
    rw [hhf, if_neg h, pow_succ]

theorem ofRat_mul (a b : ℚ) : Q2.ofRat a * Q2.ofRat b = Q2.ofRat (a * b) := by
  unfold Q2.ofRat
  ext <;> simp

theorem ofRat_one : Q2.ofRat 1 = 1 := rfl

theorem hQ_pow_mul (n : Nat) : hQ ^ n * hQ ^ n = Q2.ofRat (1 / 2 ^ n) := by
  induction n with
  | zero => simp [ofRat_one]
  | succ n ih =>
    have h1 : hQ ^ (n + 1) * hQ ^ (n + 1) = (hQ ^ n * hQ ^ n) * (hQ * hQ) := by ring
    have h2 : hQ * hQ = Q2.ofRat (1 / 2) := by
      unfold hQ Q2.ofRat
      ext <;> simp <;> norm_num
    rw [h1, ih, h2, ofRat_mul]
    congr 1
    rw [pow_succ]
    ring

theorem tensorAll_had (n : Nat) :
    tensorAll (List.replicate n hadamard) = genR (2 ^ n) (2 ^ n) (HadF n) :=
  tensorAll_replicate_gate hadamard hf hadamard_genR n

theorem tensorAll_sigmax (n : Nat) :
    tensorAll (List.replicate n sigmax) =
      genR (2 ^ n) (2 ^ n)
        (fun r c => if c = permOf (List.replicate n '0') r then 1 else 0) := by
  rw [tensorAll_replicate_gate sigmax xf sigmax_genR n]
  refine genR_congr (fun r c hr hc => ?_)
  have hmap : List.replicate n xf =
      (List.replicate n '0').map (fun ch => if ch = '0' then xf else idf) := by
    rw [List.map_replicate, if_pos rfl]
  rw [hmap]
  have hlen : (List.replicate n '0').length = n := List.length_replicate n '0'
  exact entryFoldR_perm (List.replicate n '0') r c (by rwa [hlen]) (by rwa [hlen])

theorem X0_lt (n : Nat) (d : Nat) : permOf (List.replicate n '0') d < 2 ^ n := by
  have := permOf_lt (List.replicate n '0') d
  rwa [List.length_replicate] at this

theorem X0_invol (n : Nat) (d : Nat) (hd : d < 2 ^ n) :
    permOf (List.replicate n '0') (permOf (List.replicate n '0') d) = d := by
  refine permOf_invol _ d ?_
  rwa [List.length_replicate]

theorem X0_key (n : Nat) (d : Nat) (hd : d < 2 ^ n) :
    (permOf (List.replicate n '0') d = 2 ^ n - 1 ↔ d = 0) := by
  have h := permOf_binary n 0 d (Nat.pos_pow_of_pos n (by omega)) hd
  rwa [binary_repr_zero, List.reverse_replicate] at h

/-- Closed form of the gate-composed diffusion operator: conjugating the
phase flip on the all-ones state by `X̄` moves it to the all-zeros state, and
conjugating by `H̄` turns it into the rank-one uniform projector, giving
`dif1 = (I - 2A) ⊗ I`. -/
theorem dif1_closed (n : Nat) :
    Grover.dif1 (2 ^ n) n =
      tensorM (genR (2 ^ n) (2 ^ n)
        (fun r c => (if r = c then (1 : Q2) else 0) - Q2.ofRat (2 / 2 ^ n))) qeye2 := by
  have hL : 0 < 2 ^ n := Nat.pos_pow_of_pos n (by omega)
  set X0 : Nat → Nat := permOf (List.replicate n '0') with hX0def
  have hXg : genR (2 ^ n) (2 ^ n) (fun r c => if c = X0 r then 1 else 0) =
      permM (2 ^ n) X0 := rfl
  have hid2 : idM 2 = genR 2 2 idf := rfl
  have hA1 : matMul (genR (2 ^ n) (2 ^ n) (HadF n))
      (genR (2 ^ n) (2 ^ n) (fun r c => if c = X0 r then 1 else 0)) =
      genR (2 ^ n) (2 ^ n) (fun r c => HadF n r (X0 c)) := by
    rw [hXg]
    exact matMul_permM_right (2 ^ n) (2 ^ n) hL X0 (fun d _ => X0_lt n d)
      (fun d hd => X0_invol n d hd) (HadF n)
  have hA2 : matMul (genR (2 ^ n) (2 ^ n) (fun r c => HadF n r (X0 c)))
      (genR (2 ^ n) (2 ^ n)
        (fun r c => if r = c then (if r = 2 ^ n - 1 then (-1 : Q2) else 1) else 0)) =
      genR (2 ^ n) (2 ^ n) (fun r c =>
        HadF n r (X0 c) * (if c = 2 ^ n - 1 then (-1 : Q2) else 1)) := by
    rw [matMul_genR (2 ^ n) (2 ^ n) (2 ^ n) hL _ _]
    refine genR_congr (fun r c hr hc => ?_)
    rw [sumR_single (2 ^ n) c _ hc ?_]
    · rw [if_pos rfl]
    · intro k hk hkc
      rw [if_neg hkc, mul_zero]
  have hA3 : matMul (genR (2 ^ n) (2 ^ n) (fun r c =>
      HadF n r (X0 c) * (if c = 2 ^ n - 1 then (-1 : Q2) else 1)))
      (genR (2 ^ n) (2 ^ n) (fun r c => if c = X0 r then 1 else 0)) =
      genR (2 ^ n) (2 ^ n) (fun r c =>
        HadF n r c * (if c = 0 then (-1 : Q2) else 1)) := by
    rw [hXg]
    rw [matMul_permM_right (2 ^ n) (2 ^ n) hL X0 (fun d _ => X0_lt n d)
      (fun d hd => X0_invol n d hd) _]
    refine genR_congr (fun r c hr hc => ?_)
    rw [hX0def]
    rw [X0_invol n c hc]
    congr 1
    by_cases h : c = 0
    · rw [if_pos ((X0_key n c hc).mpr h), if_pos h]
    · rw [if_neg (fun hcon => h ((X0_key n c hc).mp hcon)), if_neg h]
  have hA4 : matMul (genR (2 ^ n) (2 ^ n) (fun r c =>
      HadF n r c * (if c = 0 then (-1 : Q2) else 1)))
      (genR (2 ^ n) (2 ^ n) (HadF n)) =
      genR (2 ^ n) (2 ^ n)
        (fun r c => (if r = c then (1 : Q2) else 0) - Q2.ofRat (2 / 2 ^ n)) := by
    rw [matMul_genR (2 ^ n) (2 ^ n) (2 ^ n) hL _ _]
    refine genR_congr (fun r c hr hc => ?_)
    have hsum : ∀ k, k < 2 ^ n →
        HadF n r k * (if k = 0 then (-1 : Q2) else 1) * HadF n k c =
        HadF n r k * HadF n k c +
          (if k = 0 then -(2 * (HadF n r 0 * HadF n 0 c)) else 0) := by
      intro k _
      by_cases h : k = 0
      · subst h
        rw [if_pos rfl, if_pos rfl]
        ring
      · rw [if_neg h, if_neg h]
        ring
    rw [sumR_congr hsum, sumR_add]
    have horth : sumR (2 ^ n) (fun k => HadF n r k * HadF n k c) =
        if r = c then 1 else 0 := by
      have h1 := hadF_sq n
      rw [matMul_genR (2 ^ n) (2 ^ n) (2 ^ n) hL _ _, idM_eq_genR] at h1
      exact genR_inj h1 r c hr hc
    have hsingle : sumR (2 ^ n)
        (fun k => if k = 0 then -(2 * (HadF n r 0 * HadF n 0 c)) else 0) =
        -(2 * (HadF n r 0 * HadF n 0 c)) := by
      rw [sumR_single (2 ^ n) 0 _ hL (fun k _ hk => by rw [if_neg hk]), if_pos rfl]
    rw [horth, hsingle, hadF_col0 n r, hadF_row0 n c, hQ_pow_mul n]
    have h2 : (2 : Q2) = Q2.ofRat 2 := rfl
    rw [h2, ofRat_mul]
    have h3 : (2 : ℚ) * (1 / 2 ^ n) = 2 / 2 ^ n := by ring
    rw [h3]
    ring
  simp only [Grover.dif1]
  rw [tensorAll_had, tensorAll_sigmax, genMat_eq_genR, qeye2_genR]
  rw [mixed_product (2 ^ n) (2 ^ n) (2 ^ n) 2 2 2 hL (by omega) (by omega) (by omega) _ _ _ _]
  rw [idf_sq, hid2, hA1]
  rw [mixed_product (2 ^ n) (2 ^ n) (2 ^ n) 2 2 2 hL (by omega) (by omega) (by omega) _ _ _ _]
  rw [idf_sq, hid2, hA2]
  rw [mixed_product (2 ^ n) (2 ^ n) (2 ^ n) 2 2 2 hL (by omega) (by omega) (by omega) _ _ _ _]
  rw [idf_sq, hid2, hA3]
  rw [mixed_product (2 ^ n) (2 ^ n) (2 ^ n) 2 2 2 hL (by omega) (by omega) (by omega) _ _ _ _]
  rw [idf_sq, hid2, hA4, ← qeye2_genR]
theorem ofRat_neg (a : ℚ) : -Q2.ofRat a = Q2.ofRat (-a) := by
  unfold Q2.ofRat
  ext <;> simp

theorem ofRat_add (a b : ℚ) : Q2.ofRat a + Q2.ofRat b = Q2.ofRat (a + b) := by
  unfold Q2.ofRat
  ext <;> simp

theorem ofRat_sub (a b : ℚ) : Q2.ofRat a - Q2.ofRat b = Q2.ofRat (a - b) := by
  rw [sub_eq_add_neg, ofRat_neg, ofRat_add, ← sub_eq_add_neg]

/-- Closed form of the direct diffusion operator: `dif2 = (-I + 2A) ⊗ I`
written entrywise. -/
theorem dif2_closed (n : Nat) :
    Grover.dif2 n =
      tensorM (genR (2 ^ n) (2 ^ n)
        (fun r c => Q2.ofRat ((if r = c then -1 else 0) + 2 * (1 / 2 ^ n)))) qeye2 := by
  rw [Grover.dif2, genMat_eq_genR, qeye2_genR]

/-- C2: the spec claims the gate-composed diffusion operator `dif1` and the
closed-form operator `dif2` are entrywise identical; in fact each entry of
`dif1` is the NEGATIVE of the corresponding entry of `dif2` (`dif1` builds
`(I - 2A) ⊗ I` while `dif2` builds `(-I + 2A) ⊗ I`).  Amended statement:
for every data-qubit count `n` (so in particular for n = 2, 3, 4),
`-dif1(2^n, n) = dif2(n)` entrywise. -/
theorem dif1_is_negM_dif2 (n : Nat) :
    negM (Grover.dif1 (2 ^ n) n) = Grover.dif2 n := by
  rw [dif1_closed n, Grover.dif2, genMat_eq_genR, qeye2_genR]
  rw [tensorM_genR (2 ^ n) (2 ^ n) 2 2 (by omega) (by omega) _ _]
  rw [tensorM_genR (2 ^ n) (2 ^ n) 2 2 (by omega) (by omega) _ _]
  rw [negM_genR]
  refine genR_congr (fun r c hr hc => ?_)
  rw [neg_mul_eq_neg_mul]
  congr 1
  by_cases h : r / 2 = c / 2
  · rw [if_pos h, if_pos h]
    have h1 : (1 : Q2) = Q2.ofRat 1 := rfl
    rw [h1, ofRat_sub, ofRat_neg]
    have h2 : (-(1 - 2 / 2 ^ n) : ℚ) = -1 + 2 * (1 / 2 ^ n) := by ring
    rw [h2]
  · rw [if_neg h, if_neg h]
    rw [zero_sub, neg_neg]
    have h2 : (2 / 2 ^ n : ℚ) = 0 + 2 * (1 / 2 ^ n) := by ring
    rw [h2]

/-- C2 (counterexample to the literal spec sentence): at n = 2 data qubits
the two diffusion constructions differ as matrices: `dif1(4, 2) ≠ dif2(2)`. -/
theorem dif1_ne_dif2 : Grover.dif1 (2 ^ 2) 2 ≠ Grover.dif2 2 := by decide!
theorem ket0_genR : ket0 = genR 2 1 (fun r _ => if r = 0 then 1 else 0) := by decide!

theorem ket1_genR : ket1 = genR 2 1 (fun r _ => if r = 1 then 1 else 0) := by decide!

/-- Tensoring `n` copies of `|0⟩` gives the `2^n`-dimensional basis column at 0. -/
theorem tensorAll_ket0 (n : Nat) :
    tensorAll (List.replicate n ket0) =
      genR (2 ^ n) 1 (fun r _ => if r = 0 then 1 else 0) := by
  induction n with
  | zero => rfl
  | succ k ih =>
    have hrep : List.replicate (k + 1) ket0 = List.replicate k ket0 ++ [ket0] := by
      rw [← List.replicate_succ']
    rw [hrep, tensorAll_concat, ih, ket0_genR,
      tensorM_genR (2 ^ k) 1 2 1 (by omega) (by omega) _ _]
    have hpow : 2 ^ k * 2 = 2 ^ (k + 1) := by rw [Nat.pow_succ]
    rw [hpow]
    refine genR_congr (fun r c hr hc => ?_)
    by_cases h : r = 0
    · subst h
      norm_num
    · have : r / 2 ≠ 0 ∨ r % 2 ≠ 0 := by omega
      rcases this with h2 | h2
      · rw [if_neg h2, if_neg h, zero_mul]
      · rw [if_neg h2, if_neg h, mul_zero]

/-- The register `|0…01⟩` in closed form: the `2^(n+1)`-dimensional basis
column at index 1. -/
theorem registerQ_closed (n : Nat) :
    Grover.registerQ n = genR (2 ^ (n + 1)) 1 (fun r _ => if r = 1 then 1 else 0) := by
  rw [Grover.registerQ, tensorAll_concat, tensorAll_ket0, ket1_genR,
    tensorM_genR (2 ^ n) 1 2 1 (by omega) (by omega) _ _]
  have hpow : 2 ^ n * 2 = 2 ^ (n + 1) := by rw [Nat.pow_succ]
  rw [hpow]
  refine genR_congr (fun r c hr hc => ?_)
  by_cases h : r = 1
  · subst h
    norm_num
  · have : r / 2 ≠ 0 ∨ r % 2 ≠ 1 := by omega
    rcases this with h2 | h2
    · rw [if_neg h2, if_neg h, zero_mul]
    · rw [if_neg h2, if_neg h, mul_zero]

theorem normSq_genR_col (m : Nat) (f : Nat → Nat → Q2) :
    normSq (genR m 1 f) = sumR m (fun r => f r 0 * f r 0) := by
  unfold normSq genR sumR
  rw [List.map_map]
  refine congrArg List.sum (List.map_congr_left (fun r _ => ?_))
  simp [List.range_succ]
/-- C7: for every data-qubit count `n ≥ 1`, the register built by tensoring
`n` copies of `|0⟩` followed by the control qubit `|1⟩` is a column vector of
dimension `2^(n+1)` (each row a single entry), and its sum of squared
amplitudes is exactly 1. -/
theorem register_dim_and_norm (n : Nat) (h : 1 ≤ n) :
    (Grover.registerQ n).length = 2 ^ (n + 1) ∧
    (∀ row ∈ Grover.registerQ n, row.length = 1) ∧
    normSq (Grover.registerQ n) = 1 := by
  rw [registerQ_closed n]
  refine ⟨genR_length _ _ _, ?_, ?_⟩
  · intro row hrow
    unfold genR at hrow
    obtain ⟨r, _, hrw⟩ := List.mem_map.mp hrow
    rw [← hrw]
    simp
  · rw [normSq_genR_col]
    have h1 : 1 < 2 ^ (n + 1) := Nat.one_lt_two_pow (by omega)
    rw [sumR_single (2 ^ (n + 1)) 1 _ h1 ?_]
    · norm_num
    · intro k hk hk1
      rw [if_neg hk1, zero_mul]

/-- C7 witness at n = 2: the register has dimension 8 and unit norm. -/
theorem register_dim_and_norm_witness :
    1 ≤ 2 ∧ ((Grover.registerQ 2).length = 2 ^ 3 ∧
      (∀ row ∈ Grover.registerQ 2, row.length = 1) ∧
      normSq (Grover.registerQ 2) = 1) :=
  ⟨by omega, register_dim_and_norm 2 (by omega)⟩
theorem sqrt_two_bounds :
    (1.414213 : ℝ) < Real.sqrt 2 ∧ Real.sqrt 2 < 1.414214 := by
  constructor
  · rw [show (1.414213 : ℝ) = Real.sqrt (1.414213 ^ 2) from
      (Real.sqrt_sq (by norm_num)).symm]
    exact Real.sqrt_lt_sqrt (by positivity) (by norm_num)
  · rw [show (1.414214 : ℝ) = Real.sqrt (1.414214 ^ 2) from
      (Real.sqrt_sq (by norm_num)).symm]
    exact Real.sqrt_lt_sqrt (by positivity) (by norm_num)

theorem pi_sqrt_two_bounds :
    (4.442878 : ℝ) < Real.pi * Real.sqrt 2 ∧ Real.pi * Real.sqrt 2 < 4.442886 := by
  have hs := sqrt_two_bounds
  have hp1 := Real.pi_gt_3141592
  have hp2 := Real.pi_lt_3141593
  constructor
  · nlinarith [hs.1, hs.2, hp1, hp2]
  · nlinarith [hs.1, hs.2, hp1, hp2]

theorem sqrt_pow_even (k : Nat) : Real.sqrt (2 ^ (2 * k)) = 2 ^ k := by
  rw [show (2 : ℝ) ^ (2 * k) = ((2 : ℝ) ^ k) ^ 2 by rw [← pow_mul, Nat.mul_comm]]
  exact Real.sqrt_sq (by positivity)

theorem sqrt_pow_odd (k : Nat) : Real.sqrt (2 ^ (2 * k + 1)) = 2 ^ k * Real.sqrt 2 := by
  rw [show (2 : ℝ) ^ (2 * k + 1) = ((2 : ℝ) ^ (2 * k)) * 2 by rw [pow_succ]]
  rw [Real.sqrt_mul (by positivity), sqrt_pow_even]

theorem repeatSpec_iff (n r v : Nat) (x : ℝ) (hx : Real.sqrt (2 ^ n) = x)
    (hlo : (v : ℝ) ≤ Real.pi / 4 * x) (hhi : Real.pi / 4 * x < (v : ℝ) + 1) :
    Grover.repeatSpec n r ↔ r = v := by
  unfold Grover.repeatSpec
  rw [hx]
  constructor
  · rintro ⟨h1, h2⟩
    have hvr : (r : ℝ) < (v : ℝ) + 1 := lt_of_le_of_lt h1 hhi
    have hrv : (v : ℝ) < (r : ℝ) + 1 := lt_of_le_of_lt hlo h2
    have hn1 : r < v + 1 := by
      have : (r : ℝ) < ((v + 1 : Nat) : ℝ) := by push_cast; linarith
      exact_mod_cast this
    have hn2 : v < r + 1 := by
      have : (v : ℝ) < ((r + 1 : Nat) : ℝ) := by push_cast; linarith
      exact_mod_cast this
    omega
  · rintro rfl
    exact ⟨hlo, hhi⟩

/-- C5: for each data-qubit count n = 1..6 the Grover repetition count
`repeat(n) = int((π/4)·√(2^n))` takes exactly the reference value — 1, 1, 2,
3, 4, 6 respectively — i.e. that value, and no other, satisfies the defining
floor relation; in particular `repeat(1) = 1`, not 2. -/
theorem repeat_reference_values :
    (∀ r, Grover.repeatSpec 1 r ↔ r = 1) ∧
    (∀ r, Grover.repeatSpec 2 r ↔ r = 1) ∧
    (∀ r, Grover.repeatSpec 3 r ↔ r = 2) ∧
    (∀ r, Grover.repeatSpec 4 r ↔ r = 3) ∧
    (∀ r, Grover.repeatSpec 5 r ↔ r = 4) ∧
    (∀ r, Grover.repeatSpec 6 r ↔ r = 6) := by
  have hps := pi_sqrt_two_bounds
  have hp1 := Real.pi_gt_3141592
  have hp2 := Real.pi_lt_3141593
  have h1 : Real.sqrt ((2 : ℝ) ^ (1 : Nat)) = Real.sqrt 2 := by norm_num
  have h2 : Real.sqrt ((2 : ℝ) ^ (2 : Nat)) = 2 := by
    have h := sqrt_pow_even 1
    norm_num at h ⊢
    convert h using 2 <;> norm_num
  have h3 : Real.sqrt ((2 : ℝ) ^ (3 : Nat)) = 2 * Real.sqrt 2 := by
    have h := sqrt_pow_odd 1
    norm_num at h ⊢
    convert h using 2 <;> norm_num
  have h4 : Real.sqrt ((2 : ℝ) ^ (4 : Nat)) = 4 := by
    have h := sqrt_pow_even 2
    norm_num at h ⊢
    convert h using 2 <;> norm_num
  have h5 : Real.sqrt ((2 : ℝ) ^ (5 : Nat)) = 4 * Real.sqrt 2 := by
    have h := sqrt_pow_odd 2
    norm_num at h ⊢
    convert h using 2 <;> norm_num
  have h6 : Real.sqrt ((2 : ℝ) ^ (6 : Nat)) = 8 := by
    have h := sqrt_pow_even 3
    norm_num at h ⊢
    convert h using 2 <;> norm_num
  refine ⟨fun r => repeatSpec_iff 1 r 1 _ h1 ?_ ?_,
    fun r => repeatSpec_iff 2 r 1 _ h2 ?_ ?_,
    fun r => repeatSpec_iff 3 r 2 _ h3 ?_ ?_,
    fun r => repeatSpec_iff 4 r 3 _ h4 ?_ ?_,
    fun r => repeatSpec_iff 5 r 4 _ h5 ?_ ?_,
    fun r => repeatSpec_iff 6 r 6 _ h6 ?_ ?_⟩
  · push_cast
    nlinarith [hps.1]
  · push_cast
    nlinarith [hps.2]
  · push_cast
    nlinarith [hp1]
  · push_cast
    nlinarith [hp2]
  · push_cast
    nlinarith [hps.1]
  · push_cast
    nlinarith [hps.2]
  · push_cast
    nlinarith [hp1]
  · push_cast
    nlinarith [hp2]
  · push_cast
    nlinarith [hps.1]
  · push_cast
    nlinarith [hps.2]
  · push_cast
    nlinarith [hp1]
  · push_cast
    nlinarith [hp2]
/-- C6: Deutsch's circuit on inputs "00" and "11" puts probability exactly 1
on the top-qubit-`|0⟩` partition and decodes as CONSTANT `(confirmed)`; on
"01" and "10" it puts probability exactly 1 on the top-qubit-`|1⟩` partition
and decodes as BALANCED `(confirmed)`. -/
theorem deutsch_four_cases :
    ((Deutsch.circuit ['0', '0']).map (fun p => Deutsch.prob00or01 p.2) = some 1 ∧
     (Deutsch.circuit ['0', '0']).map (fun p => Deutsch.results p.1 p.2) =
       some .constantConfirmed) ∧
    ((Deutsch.circuit ['1', '1']).map (fun p => Deutsch.prob00or01 p.2) = some 1 ∧
     (Deutsch.circuit ['1', '1']).map (fun p => Deutsch.results p.1 p.2) =
       some .constantConfirmed) ∧
    ((Deutsch.circuit ['0', '1']).map (fun p => Deutsch.prob10or11 p.2) = some 1 ∧
     (Deutsch.circuit ['0', '1']).map (fun p => Deutsch.results p.1 p.2) =
       some .balancedConfirmed) ∧
    ((Deutsch.circuit ['1', '0']).map (fun p => Deutsch.prob10or11 p.2) = some 1 ∧
     (Deutsch.circuit ['1', '0']).map (fun p => Deutsch.results p.1 p.2) =
       some .balancedConfirmed) := by decide!
/-- C4 (code bug): the Deutsch-Jozsa interpreter's balanced branch can never
report the error marker on a nonempty input string: its self-check condition
`input ≠ all-ones OR input ≠ all-zeros` is a tautology for nonempty strings
(the spec requires `(error)` exactly when the string is all-`'0'`s or
all-`'1'`s). -/
theorem dj_balanced_never_error (s : List Char) (R : Mat) (hs : s ≠ []) :
    DJ.results s R ≠ DJ.Outcome.balancedError := by
  have hor : s ≠ List.replicate s.length '1' ∨ s ≠ List.replicate s.length '0' := by
    by_cases h1 : s = List.replicate s.length '1'
    · right
      intro h0
      have hlen : s.length ≠ 0 := fun h => hs (List.eq_nil_of_length_eq_zero h)
      obtain ⟨k, hk⟩ := Nat.exists_eq_succ_of_ne_zero hlen
      have hcon := h1.symm.trans h0
      rw [hk] at hcon
      simp [List.replicate_succ] at hcon
    · exact Or.inl h1
  unfold DJ.results
  simp only
  split
  all_goals try split
  all_goals simp_all
/-- C4 witness: on the all-`'0'` (constant) string of length 4 with a state
decoding as balanced, the interpreter still cannot produce the error marker —
it reports `(confirmed)` for a wrong decode. -/
theorem dj_balanced_never_error_witness :
    (List.replicate 4 '0' : List Char) ≠ [] ∧
    DJ.results (List.replicate 4 '0') (genR 8 1 (fun _ _ => 0)) ≠
      DJ.Outcome.balancedError :=
  ⟨by decide, dj_balanced_never_error _ _ (by decide)⟩
theorem sigmaOf_lt (s : List Char) (r : Nat) (hr : r < s.length * 2) :
    sigmaOf s r < s.length * 2 := by
  unfold sigmaOf Grover.partner
  by_cases h : s.getD (r / 2) '0' = '0'
  · rw [if_pos h]
    exact hr
  · rw [if_neg h]
    by_cases h2 : r % 2 = 0
    · rw [if_pos h2]
      omega
    · rw [if_neg h2]
      omega

theorem sigmaOf_invol (s : List Char) (r : Nat) : sigmaOf s (sigmaOf s r) = r := by
  unfold sigmaOf Grover.partner
  by_cases h : s.getD (r / 2) '0' = '0'
  · rw [if_pos h, if_pos h]
  · rw [if_neg h]
    by_cases h2 : r % 2 = 0
    · rw [if_pos h2]
      have hdiv : (r + 1) / 2 = r / 2 := by omega
      rw [hdiv, if_neg h]
      have hodd : ¬((r + 1) % 2 = 0) := by omega
      rw [if_neg hodd]
      omega
    · rw [if_neg h2]
      have hdiv : (r - 1) / 2 = r / 2 := by omega
      rw [hdiv, if_neg h]
      have heven : (r - 1) % 2 = 0 := by omega
      rw [if_pos heven]
      omega

/-- C9: for every input string, the directly-constructed oracle `uf2` is the
permutation matrix of the pairwise swap `sigmaOf` (identity pair on a `'0'`,
swapped pair otherwise), it is symmetric, and it is its own inverse:
`uf2(s) · uf2(s)` is the `2L × 2L` identity. -/
theorem uf2_symmetric_involutive (s : List Char) :
    Grover.uf2 s = permM (s.length * 2) (sigmaOf s) ∧
    transposeM (Grover.uf2 s) = Grover.uf2 s ∧
    matMul (Grover.uf2 s) (Grover.uf2 s) = idM (s.length * 2) := by
  refine ⟨uf2_permM s, ?_, ?_⟩
  · rcases Nat.eq_zero_or_pos s.length with h0 | hpos
    · have hs : s = [] := List.eq_nil_of_length_eq_zero h0
      subst hs
      rfl
    · rw [uf2_permM s]
      unfold permM
      rw [transposeM_genR _ _ _ (by omega)]
      refine genR_congr (fun r c hr hc => ?_)
      by_cases h : c = sigmaOf s r
      · have h2 : r = sigmaOf s c := by rw [h, sigmaOf_invol]
        rw [if_pos h2, if_pos h]
      · have h2 : ¬(r = sigmaOf s c) := by
          intro hcon
          exact h (by rw [hcon, sigmaOf_invol])
        rw [if_neg h2, if_neg h]
  · rcases Nat.eq_zero_or_pos s.length with h0 | hpos
    · have hs : s = [] := List.eq_nil_of_length_eq_zero h0
      subst hs
      rfl
    · rw [uf2_permM s]
      unfold permM
      rw [matMul_genR (s.length * 2) (s.length * 2) (s.length * 2) (by omega) _ _,
        idM_eq_genR]
      refine genR_congr (fun r c hr hc => ?_)
      rw [sumR_single (s.length * 2) (sigmaOf s r) _ (sigmaOf_lt s r hr) ?_]
      · rw [if_pos rfl, one_mul, sigmaOf_invol]
        by_cases h : r = c
        · rw [if_pos h.symm, if_pos h]
        · rw [if_neg (fun hc2 => h hc2.symm), if_neg h]
      · intro k hk hkne
        rw [if_neg hkne, zero_mul]
theorem log2fuel_upper : ∀ fuel n, n ≤ fuel → n < 2 ^ (log2fuel fuel n + 1) := by
  intro fuel
  induction fuel with
  | zero =>
    intro n hn
    interval_cases n
    simp [log2fuel]
  | succ f ih =>
    intro n hn
    unfold log2fuel
    by_cases h : n ≤ 1
    · rw [if_pos h]
      simp
      omega
    · rw [if_neg h]
      have hdiv : n / 2 ≤ f := by omega
      have hIH := ih (n / 2) hdiv
      have hpow : 2 ^ (log2fuel f (n / 2) + 1 + 1) = 2 * 2 ^ (log2fuel f (n / 2) + 1) := by
        rw [pow_succ]
        ring
      omega

theorem lt_two_pow_clog2N (d : Nat) : d < 2 ^ clog2N (d + 1) := by
  unfold clog2N
  by_cases h : d + 1 ≤ 1
  · rw [if_pos h]
    simp
    omega
  · rw [if_neg h]
    have hd : d + 1 - 1 = d := by omega
    rw [hd]
    exact log2fuel_upper d d (le_refl d)

theorem oneHot_count (L p : Nat) (hp : p < L) : (oneHot L p).count '1' = 1 := by
  unfold oneHot
  rw [List.count_append, List.count_cons]
  simp [List.count_replicate]

theorem needle_random_eq (k pos : Nat) (hpos : pos < 2 ^ k) :
    Grover.needle_random k pos = oneHot (2 ^ k) pos := by
  unfold Grover.needle_random oneHot
  simp only
  rw [List.take_replicate, List.drop_replicate]
  have hmin : min pos (2 ^ k) = pos := Nat.min_eq_left (Nat.le_of_lt hpos)
  rw [hmin]
  have hsub : 2 ^ k - (pos + 1) = 2 ^ k - pos - 1 := by omega
  rw [hsub]
/-- C10: every string produced by the needle generators `needle_random` (with
its position draw in range), `needle_decimal`, and `needle_binary` has length
an exact power of two and contains exactly one `'1'`, located at the requested
position for the latter two — so the Grover validity invariant holds for all
generated inputs. -/
theorem needle_generators_valid :
    (∀ k pos, pos < 2 ^ k →
      (Grover.needle_random k pos).length = 2 ^ k ∧
      (Grover.needle_random k pos).count '1' = 1 ∧
      (Grover.needle_random k pos).getD pos '0' = '1') ∧
    (∀ d, (Grover.needle_decimal d).length = 2 ^ clog2N (d + 1) ∧
      (Grover.needle_decimal d).count '1' = 1 ∧
      (Grover.needle_decimal d).getD d '0' = '1') ∧
    (∀ bs, (Grover.needle_binary bs).length = 2 ^ clog2N (Grover.parseBin2 bs + 1) ∧
      (Grover.needle_binary bs).count '1' = 1 ∧
      (Grover.needle_binary bs).getD (Grover.parseBin2 bs) '0' = '1') := by
  have hdec : ∀ d, Grover.needle_decimal d = oneHot (2 ^ clog2N (d + 1)) d :=
    fun d => rfl
  have hbin : ∀ bs, Grover.needle_binary bs =
      oneHot (2 ^ clog2N (Grover.parseBin2 bs + 1)) (Grover.parseBin2 bs) :=
    fun bs => rfl
  refine ⟨fun k pos hpos => ?_, fun d => ?_, fun bs => ?_⟩
  · rw [needle_random_eq k pos hpos]
    refine ⟨oneHot_length _ _ hpos, oneHot_count _ _ hpos, ?_⟩
    rw [oneHot_getD _ _ _ hpos, if_pos rfl]
  · rw [hdec d]
    have hlt := lt_two_pow_clog2N d
    refine ⟨oneHot_length _ _ hlt, oneHot_count _ _ hlt, ?_⟩
    rw [oneHot_getD _ _ _ hlt, if_pos rfl]
  · rw [hbin bs]
    have hlt := lt_two_pow_clog2N (Grover.parseBin2 bs)
    refine ⟨oneHot_length _ _ hlt, oneHot_count _ _ hlt, ?_⟩
    rw [oneHot_getD _ _ _ hlt, if_pos rfl]
namespace Grover

/-- Modelled from the spec: `build_register(num_data_qubits)` returns the
tensor product of `num_data_qubits` copies of `|0⟩` followed by one `|1⟩`
control qubit (the same construction as the script's register loop), and
fails — modelled as `none` — when `num_data_qubits < 1`. -/
def build_register (num_data_qubits : Nat) : Option Mat :=
  if num_data_qubits < 1 then none
  else some (tensorAll (List.replicate num_data_qubits ket0 ++ [ket1]))

/-- Modelled from the spec: `build_combined_gate(per_qubit_gate, num_qubits,
include_control_as_identity)` tensors the gate across `num_qubits` positions
(the script's left-associative fold) and, when requested, appends one
`Identity(2)` factor for the control qubit; it fails — modelled as `none` —
when `num_qubits < 1` or the gate is not `2×2`. -/
def build_combined_gate (per_qubit_gate : Mat) (num_qubits : Nat)
    (include_control_as_identity : Bool) : Option Mat :=
  if num_qubits < 1 ∨ ¬(per_qubit_gate.length = 2 ∧
      ∀ row ∈ per_qubit_gate, row.length = 2) then none
  else some (if include_control_as_identity then
      tensorM (tensorAll (List.replicate num_qubits per_qubit_gate)) qeye2
    else tensorAll (List.replicate num_qubits per_qubit_gate))

end Grover

/-- C8: the register/combined-gate builders fail on every invalid input — a
data-qubit count below 1 or a per-qubit gate that is not `2×2` — returning no
state vector or operator; on valid counts `build_register` returns exactly the
script's register. -/
theorem build_validation :
    (∀ n, n < 1 → Grover.build_register n = none) ∧
    (∀ n (g : Mat) (b : Bool), n < 1 ∨ ¬(g.length = 2 ∧ ∀ row ∈ g, row.length = 2) →
      Grover.build_combined_gate g n b = none) ∧
    (∀ n, 1 ≤ n → Grover.build_register n = some (Grover.registerQ n)) := by
  refine ⟨fun n hn => ?_, fun n g b h => ?_, fun n hn => ?_⟩
  · rw [Grover.build_register, if_pos hn]
  · rw [Grover.build_combined_gate, if_pos h]
  · rw [Grover.build_register, if_neg (by omega)]
    rfl
theorem log2fuel_pow : ∀ fuel k, 2 ^ k ≤ fuel → log2fuel fuel (2 ^ k) = k := by
  intro fuel
  induction fuel with
  | zero =>
    intro k hk
    have h1 : 0 < 2 ^ k := Nat.pos_pow_of_pos k (by omega)
    omega
  | succ f ih =>
    intro k hk
    unfold log2fuel
    by_cases h : 2 ^ k ≤ 1
    · rw [if_pos h]
      have hk0 : k = 0 := by
        by_contra hne
        have h2 : 2 ^ 1 ≤ 2 ^ k := Nat.pow_le_pow_right (by omega) (by omega)
        simp at h2
        omega
      omega
    · rw [if_neg h]
      have hk1 : 1 ≤ k := by
        by_contra h0
        push_neg at h0
        interval_cases k
        simp at h
      have hdiv : 2 ^ k / 2 = 2 ^ (k - 1) := by
        conv_lhs => rw [show k = (k - 1) + 1 by omega, pow_succ]
        exact Nat.mul_div_cancel _ (by omega)
      have hlt : 2 ^ (k - 1) < 2 ^ k := Nat.pow_lt_pow_right (by omega) (by omega)
      rw [hdiv, ih (k - 1) (by omega)]
      omega

theorem log2N_pow (n : Nat) : log2N (2 ^ n) = n :=
  log2fuel_pow (2 ^ n) n (le_refl _)

/-- A string over `{'0','1'}` containing exactly one `'1'` is a one-hot
string. -/
theorem eq_oneHot_of_count_one (s : List Char)
    (halpha : ∀ c ∈ s, c = '0' ∨ c = '1') (hone : s.count '1' = 1) :
    ∃ p, p < s.length ∧ s = oneHot s.length p := by
  induction s with
  | nil => simp at hone
  | cons c t ih =>
    rcases halpha c (List.mem_cons_self c t) with h0 | h1
    · subst h0
      have hcount : t.count '1' = 1 := by
        rw [List.count_cons] at hone
        simpa using hone
      obtain ⟨p, hp, hs⟩ := ih (fun b hb => halpha b (List.mem_cons_of_mem _ hb)) hcount
      refine ⟨p + 1, by simp only [List.length_cons]; omega, ?_⟩
      rw [List.length_cons]
      show ('0' :: t : List Char) = oneHot (t.length + 1) (p + 1)
      unfold oneHot
      rw [List.replicate_succ]
      show ('0' :: t : List Char) =
        '0' :: (List.replicate p '0' ++ '1' :: List.replicate (t.length + 1 - (p + 1) - 1) '0')
      congr 1
      rw [show t.length + 1 - (p + 1) - 1 = t.length - p - 1 from by omega]
      exact hs
    · subst h1
      have hnot : ('1' : Char) ∉ t := by
        rw [← List.count_eq_zero]
        rw [List.count_cons] at hone
        simpa using hone
      have hall : ∀ b ∈ t, b = '0' := by
        intro b hb
        rcases halpha b (List.mem_cons_of_mem _ hb) with h | h
        · exact h
        · subst h
          exact absurd hb hnot
      refine ⟨0, by simp, ?_⟩
      rw [List.length_cons]
      show ('1' :: t : List Char) = oneHot (t.length + 1) 0
      unfold oneHot
      show ('1' :: t : List Char) =
        [] ++ '1' :: List.replicate (t.length + 1 - 0 - 1) '0'
      rw [List.nil_append]
      congr 1
      rw [show t.length + 1 - 0 - 1 = t.length by omega]
      exact List.eq_replicate_of_mem hall
/-- C3: for every valid oracle string — length a power of two, characters in
`{'0','1'}`, exactly one `'1'` (so in particular lengths 4, 8, 16) — the
compositionally constructed oracle `uf1`, called as the pipeline calls it on
the needle data derived from the string, is entrywise identical to the
directly constructed oracle `uf2` on the string. -/
theorem uf1_matches_uf2 (s : List Char) (n : Nat) (hlen : s.length = 2 ^ n)
    (halpha : ∀ c ∈ s, c = '0' ∨ c = '1') (hone : s.count '1' = 1) :
    Grover.uf1 (Grover.needle_init s).1.string_length
      (Grover.needle_init s).2.binary = Grover.uf2 s := by
  obtain ⟨p, hp, hs⟩ := eq_oneHot_of_count_one s halpha hone
  rw [hlen] at hp hs
  subst hs
  have h1 : (Grover.needle_init (oneHot (2 ^ n) p)).1.string_length = 2 ^ n := by
    show (oneHot (2 ^ n) p).length = 2 ^ n
    exact oneHot_length _ _ hp
  have h2 : (Grover.needle_init (oneHot (2 ^ n) p)).2.binary =
      Grover.binary_repr p n := by
    show Grover.binary_repr (Grover.find1 (oneHot (2 ^ n) p)).toNat
        (log2N (oneHot (2 ^ n) p).length) = Grover.binary_repr p n
    rw [find1_oneHot _ _ hp, oneHot_length _ _ hp, log2N_pow]
    simp
  rw [h1, h2]
  exact uf1_eq_uf2 n p hp

/-- C3 witness: the valid length-4 string `"0100"` (needle at position 1). -/
theorem uf1_matches_uf2_witness :
    ((['0', '1', '0', '0'] : List Char).length = 2 ^ 2 ∧
     (∀ c ∈ (['0', '1', '0', '0'] : List Char), c = '0' ∨ c = '1') ∧
     (['0', '1', '0', '0'] : List Char).count '1' = 1) ∧
    Grover.uf1 (Grover.needle_init ['0', '1', '0', '0']).1.string_length
      (Grover.needle_init ['0', '1', '0', '0']).2.binary =
      Grover.uf2 ['0', '1', '0', '0'] :=
  ⟨⟨by decide, by decide, by decide⟩,
   uf1_matches_uf2 ['0', '1', '0', '0'] 2 (by decide) (by decide) (by decide)⟩
/-- The Grover state after any prefix of the circuit: amplitude `b` on the
needle's data index, `a` on every other data index, tensored with the control
in `(|0⟩ - |1⟩)/√2`. -/
def stV (n p : Nat) (a b : Q2) : Mat :=
  genR (2 ^ (n + 1)) 1 (fun r _ =>
    (if r / 2 = p then b else a) * (if r % 2 = 0 then hQ else -hQ))

/-- The mean-subtraction coefficient of the diffusion `I - 2A` on a
two-valued data vector. -/
def mval (n : Nat) (a b : Q2) : Q2 :=
  Q2.ofRat (1 / 2 ^ n) * ((((2 ^ n : Nat) : Q2) - 1) * a + b)

/-- One `Uf`-then-`Dif` Grover pass on the two amplitudes. -/
def groverStep (n : Nat) (ab : Q2 × Q2) : Q2 × Q2 :=
  (ab.1 - 2 * mval n ab.1 (-ab.2), -ab.2 - 2 * mval n ab.1 (-ab.2))

/-- The amplitudes after `k` Grover passes. -/
def groverIterAB (n : Nat) : Nat → Q2 × Q2 → Q2 × Q2
  | 0, ab => ab
  | k + 1, ab => groverIterAB n k (groverStep n ab)

/-- The final state after the control-qubit `H` and `X`: the data amplitudes
on the even indices, zeros on the odd ones. -/
def finalV (n p : Nat) (a b : Q2) : Mat :=
  genR (2 ^ (n + 1)) 1 (fun r _ =>
    if r % 2 = 0 then (if r / 2 = p then b else a) else 0)

/-- Entry function of `X·H`. -/
def xhf : Nat → Nat → Q2 := fun r c => if r = 0 ∧ c = 1 then -hQ else hQ

theorem xh_mul : matMul (genR 2 2 xf) (genR 2 2 hf) = genR 2 2 xhf := by decide!

theorem xh_ctrl : matMul (genR 2 2 xhf)
    (genR 2 1 (fun r _ => if r = 0 then hQ else -hQ)) =
    genR 2 1 (fun r _ => if r = 0 then 1 else 0) := by decide!

theorem sigmaOf_oneHot (n p : Nat) (hp : p < 2 ^ n) (r : Nat) (hr2 : r / 2 < 2 ^ n) :
    sigmaOf (oneHot (2 ^ n) p) r = if r / 2 = p then Grover.partner r else r := by
  unfold sigmaOf
  rw [oneHot_getD (2 ^ n) p (r / 2) hp]
  by_cases h : r / 2 = p
  · rw [if_pos h, if_pos h]
    simp
  · rw [if_neg h, if_neg h, if_pos rfl]

theorem stV_tensor (n p : Nat) (a b : Q2) :
    stV n p a b = tensorM (genR (2 ^ n) 1 (fun r _ => if r = p then b else a))
      (genR 2 1 (fun r _ => if r = 0 then hQ else -hQ)) := by
  rw [tensorM_genR (2 ^ n) 1 2 1 (by omega) (by omega) _ _]
  have hpow : 2 ^ n * 2 = 2 ^ (n + 1) := by rw [Nat.pow_succ]
  rw [hpow]
  unfold stV
  refine genR_congr (fun r c hr hc => ?_)
  have hc0 : c = 0 := by omega
  subst hc0
  rfl

theorem tensorAll_qeye (k : Nat) : tensorAll (List.replicate k qeye2) = idM (2 ^ k) := by
  induction k with
  | zero => rfl
  | succ j ih =>
    rw [List.replicate_succ', tensorAll_concat, ih]
    have h2 : qeye2 = idM 2 := by decide!
    rw [h2, tensorM_idM (2 ^ j) 2 (Nat.pos_pow_of_pos j (by omega)) (by omega),
      ← Nat.pow_succ]
theorem had_on_register (n p : Nat) :
    matMul (tensorAll (List.replicate (n + 1) hadamard)) (Grover.registerQ n) =
      stV n p (hQ ^ n) (hQ ^ n) := by
  rw [tensorAll_had, registerQ_closed,
    matMul_genR (2 ^ (n + 1)) (2 ^ (n + 1)) 1 (Nat.pos_pow_of_pos (n + 1) (by omega)) _ _]
  unfold stV
  refine genR_congr (fun r c hr hc => ?_)
  rw [sumR_single (2 ^ (n + 1)) 1 _ (Nat.one_lt_two_pow (by omega)) ?_]
  · rw [if_pos rfl, mul_one, hadF_col1 n r, ite_self]
    by_cases h : r % 2 = 0
    · rw [if_neg (by omega), if_pos h, pow_succ]
    · rw [if_pos (by omega), if_neg h, pow_succ]
      ring
  · intro k hk hk1
    rw [if_neg hk1, mul_zero]

theorem uf_on_stV (n p : Nat) (hp : p < 2 ^ n) (a b : Q2) :
    matMul (Grover.uf2 (oneHot (2 ^ n) p)) (stV n p a b) = stV n p a (-b) := by
  rw [uf2_permM, oneHot_length (2 ^ n) p hp]
  unfold stV
  have hpow : 2 ^ (n + 1) = 2 ^ n * 2 := by rw [Nat.pow_succ]
  rw [hpow,
    matMul_permM_left (2 ^ n * 2) 1 (by positivity) (sigmaOf (oneHot (2 ^ n) p))
      (fun r hr => by
        have := sigmaOf_lt (oneHot (2 ^ n) p) r
          (by rwa [oneHot_length (2 ^ n) p hp])
        rwa [oneHot_length (2 ^ n) p hp] at this) _]
  refine genR_congr (fun r c hr hc => ?_)
  rw [sigmaOf_oneHot n p hp r (by omega)]
  by_cases h : r / 2 = p
  · rw [if_pos h]
    have hpart : Grover.partner r = if r % 2 = 0 then r + 1 else r - 1 := rfl
    by_cases h2 : r % 2 = 0
    · rw [hpart, if_pos h2]
      have hd : (r + 1) / 2 = r / 2 := by omega
      have hm : ¬((r + 1) % 2 = 0) := by omega
      rw [hd, if_pos h, if_pos h, if_neg hm, if_pos h2]
      ring
    · rw [hpart, if_neg h2]
      have hd : (r - 1) / 2 = r / 2 := by omega
      have hm : (r - 1) % 2 = 0 := by omega
      rw [hd, if_pos h, if_pos h, if_pos hm, if_neg h2]
      ring
  · rw [if_neg h, if_neg h, if_neg h]

theorem id_ctrl : matMul (genR 2 2 idf)
    (genR 2 1 (fun r _ => if r = 0 then hQ else -hQ)) =
    genR 2 1 (fun r _ => if r = 0 then hQ else -hQ) := by decide!

theorem sumR_twoval (N p : Nat) (hp : p < N) (a b : Q2) :
    sumR N (fun k => if k = p then b else a) = (N : Q2) * a + (b - a) := by
  have h : ∀ k, k < N → (if k = p then b else a) =
      a + (if k = p then b - a else 0) := by
    intro k _
    by_cases hk : k = p
    · rw [if_pos hk, if_pos hk]
      ring
    · rw [if_neg hk, if_neg hk]
      ring
  rw [sumR_congr h, sumR_add, sumR_const,
    sumR_single N p _ hp (fun k _ hk => by rw [if_neg hk]), if_pos rfl]
theorem dif_on_stV (n p : Nat) (hp : p < 2 ^ n) (a b : Q2) :
    matMul (Grover.dif1 (2 ^ n) n) (stV n p a b) =
      stV n p (a - 2 * mval n a b) (b - 2 * mval n a b) := by
  have hN : 0 < 2 ^ n := Nat.pos_pow_of_pos n (by omega)
  rw [dif1_closed n, qeye2_genR, stV_tensor n p a b,
    stV_tensor n p (a - 2 * mval n a b) (b - 2 * mval n a b),
    mixed_product (2 ^ n) (2 ^ n) 1 2 2 1 hN (by omega) (by omega) (by omega) _ _ _ _,
    id_ctrl]
  have hdata : matMul
      (genR (2 ^ n) (2 ^ n)
        (fun r c => (if r = c then (1 : Q2) else 0) - Q2.ofRat (2 / 2 ^ n)))
      (genR (2 ^ n) 1 (fun r _ => if r = p then b else a)) =
      genR (2 ^ n) 1 (fun r _ =>
        if r = p then b - 2 * mval n a b else a - 2 * mval n a b) := by
    rw [matMul_genR (2 ^ n) (2 ^ n) 1 hN _ _]
    refine genR_congr (fun r c hr hc => ?_)
    have hsplit : ∀ k, k < 2 ^ n →
        ((if r = k then (1 : Q2) else 0) - Q2.ofRat (2 / 2 ^ n)) *
          (if k = p then b else a) =
        (if k = r then (if k = p then b else a) else 0) +
          (-(Q2.ofRat (2 / 2 ^ n))) * (if k = p then b else a) := by
      intro k _
      by_cases hk : k = r
      · rw [if_pos hk, if_pos hk.symm]
        ring
      · rw [if_neg hk, if_neg (fun hcon => hk hcon.symm)]
        ring
    rw [sumR_congr hsplit, sumR_add,
      sumR_single (2 ^ n) r _ hr (fun k _ hk => by rw [if_neg hk]), if_pos rfl,
      sumR_mul_left, sumR_twoval (2 ^ n) p hp a b]
    have hco : -(Q2.ofRat (2 / 2 ^ n)) * (((2 ^ n : Nat) : Q2) * a + (b - a)) =
        -(2 * mval n a b) := by
      unfold mval
      have h2 : (2 : Q2) = Q2.ofRat 2 := rfl
      rw [h2, ← mul_assoc, ofRat_mul]
      have h3 : ((2 : ℚ) * (1 / 2 ^ n)) = 2 / 2 ^ n := by ring
      rw [h3]
      ring
    rw [hco]
    by_cases hrp : r = p
    · rw [if_pos hrp, if_pos hrp]
      ring
    · rw [if_neg hrp, if_neg hrp]
      ring
  rw [hdata]
theorem iterate_stV (n p : Nat) (hp : p < 2 ^ n) (c : Grover.GCircuit)
    (hUf : c.Uf = Grover.uf2 (oneHot (2 ^ n) p))
    (hDif : c.Dif = Grover.dif1 (2 ^ n) n) :
    ∀ k a b, Grover.grover_iterate c k (stV n p a b) =
      stV n p (groverIterAB n k (a, b)).1 (groverIterAB n k (a, b)).2 := by
  intro k
  induction k with
  | zero => intro a b; rfl
  | succ j ih =>
    intro a b
    show Grover.grover_iterate c j (matMul c.Dif (matMul c.Uf (stV n p a b))) = _
    rw [hUf, hDif, uf_on_stV n p hp a b, dif_on_stV n p hp a (-b),
      ih (a - 2 * mval n a (-b)) (-b - 2 * mval n a (-b))]
    rfl

theorem final_on_stV (n p : Nat) (a b : Q2) :
    matMul (matMul (tensorM (tensorAll (List.replicate n qeye2)) sigmax)
        (tensorM (tensorAll (List.replicate n qeye2)) hadamard))
      (stV n p a b) = finalV n p a b := by
  have hN : 0 < 2 ^ n := Nat.pos_pow_of_pos n (by omega)
  rw [tensorAll_qeye, idM_eq_genR, sigmax_genR, hadamard_genR,
    mixed_product (2 ^ n) (2 ^ n) (2 ^ n) 2 2 2 hN (by omega) (by omega) (by omega) _ _ _ _,
    xh_mul]
  have hid : matMul (genR (2 ^ n) (2 ^ n) (fun r c => if r = c then (1 : Q2) else 0))
      (genR (2 ^ n) (2 ^ n) (fun r c => if r = c then (1 : Q2) else 0)) =
      genR (2 ^ n) (2 ^ n) (fun r c => if r = c then (1 : Q2) else 0) := by
    rw [matMul_genR _ _ _ hN _ _]
    refine genR_congr (fun r c hr hc => ?_)
    rw [sumR_single (2 ^ n) r _ hr
      (fun k hk hkr => by rw [if_neg (fun h => hkr h.symm), zero_mul]),
      if_pos rfl, one_mul]
  rw [hid, stV_tensor n p a b,
    mixed_product (2 ^ n) (2 ^ n) 1 2 2 1 hN (by omega) (by omega) (by omega) _ _ _ _,
    xh_ctrl]
  have hidd : matMul (genR (2 ^ n) (2 ^ n) (fun r c => if r = c then (1 : Q2) else 0))
      (genR (2 ^ n) 1 (fun r _ => if r = p then b else a)) =
      genR (2 ^ n) 1 (fun r _ => if r = p then b else a) := by
    rw [matMul_genR _ _ _ hN _ _]
    refine genR_congr (fun r c hr hc => ?_)
    rw [sumR_single (2 ^ n) r _ hr
      (fun k hk hkr => by rw [if_neg (fun h => hkr h.symm), zero_mul]),
      if_pos rfl, one_mul]
  rw [hidd, tensorM_genR (2 ^ n) 1 2 1 (by omega) (by omega) _ _]
  unfold finalV
  have hpow : 2 ^ n * 2 = 2 ^ (n + 1) := by rw [Nat.pow_succ]
  rw [hpow]
  refine genR_congr (fun r c hr hc => ?_)
  by_cases h : r % 2 = 0
  · rw [if_pos h, if_pos h, mul_one]
  · rw [if_neg h, if_neg h, mul_zero]

theorem run_circuit_closed (n p : Nat) (hp : p < 2 ^ n) (c : Grover.GCircuit) (r : Nat)
    (hQg : c.Q = Grover.registerQ n)
    (hH : c.H = tensorAll (List.replicate (n + 1) hadamard))
    (hUf : c.Uf = Grover.uf2 (oneHot (2 ^ n) p))
    (hDif : c.Dif = Grover.dif1 (2 ^ n) n)
    (hIxH : c.IxH = tensorM (tensorAll (List.replicate n qeye2)) hadamard)
    (hIxX : c.IxX = tensorM (tensorAll (List.replicate n qeye2)) sigmax) :
    Grover.run_circuit c r =
      finalV n p (groverIterAB n r (hQ ^ n, hQ ^ n)).1
        (groverIterAB n r (hQ ^ n, hQ ^ n)).2 := by
  unfold Grover.run_circuit
  simp only
  rw [hH, hQg, had_on_register n p, iterate_stV n p hp c hUf hDif r _ _, hIxH, hIxX,
    final_on_stV n p _ _]

theorem pipeline_closed (n p : Nat) (hp : p < 2 ^ n) (r : Nat) :
    Grover.pipeline (oneHot (2 ^ n) p) r =
      finalV n p (groverIterAB n r (hQ ^ n, hQ ^ n)).1
        (groverIterAB n r (hQ ^ n, hQ ^ n)).2 := by
  have hlen : (oneHot (2 ^ n) p).length = 2 ^ n := oneHot_length _ _ hp
  have hreq : (Grover.needle_init (oneHot (2 ^ n) p)).1.required_qubits = n := by
    show log2N (oneHot (2 ^ n) p).length = n
    rw [hlen, log2N_pow]
  have hsl : (Grover.needle_init (oneHot (2 ^ n) p)).1.string_length = 2 ^ n := by
    show (oneHot (2 ^ n) p).length = 2 ^ n
    exact hlen
  have hbin : (Grover.needle_init (oneHot (2 ^ n) p)).2.binary =
      Grover.binary_repr p n := by
    show Grover.binary_repr (Grover.find1 (oneHot (2 ^ n) p)).toNat
        (log2N (oneHot (2 ^ n) p).length) = Grover.binary_repr p n
    rw [find1_oneHot _ _ hp, hlen, log2N_pow]
    simp
  unfold Grover.pipeline
  simp only
  refine run_circuit_closed n p hp _ r ?_ ?_ ?_ ?_ ?_ ?_
  · show Grover.registerQ (Grover.needle_init (oneHot (2 ^ n) p)).1.required_qubits = _
    rw [hreq]
  · show tensorAll (List.replicate
        ((Grover.needle_init (oneHot (2 ^ n) p)).1.required_qubits + 1) hadamard) = _
    rw [hreq]
  · show Grover.uf1 (Grover.needle_init (oneHot (2 ^ n) p)).1.string_length
        (Grover.needle_init (oneHot (2 ^ n) p)).2.binary = _
    rw [hsl, hbin]
    exact uf1_eq_uf2 n p hp
  · show Grover.dif1 (Grover.needle_init (oneHot (2 ^ n) p)).1.string_length
        (Grover.needle_init (oneHot (2 ^ n) p)).1.required_qubits = _
    rw [hsl, hreq]
  · show tensorM (tensorAll (List.replicate
        (Grover.needle_init (oneHot (2 ^ n) p)).1.required_qubits qeye2)) hadamard = _
    rw [hreq]
  · show tensorM (tensorAll (List.replicate
        (Grover.needle_init (oneHot (2 ^ n) p)).1.required_qubits qeye2)) sigmax = _
    rw [hreq]
/-- C1: for every oracle length `L = 2^n` with `n ∈ {2,3,4,5}` (L = 4, 8, 16,
32) and every needle position `p < L`, running the full Grover pipeline on the
one-hot input string for the number of iterations `repeat(n)` prescribed by
the floor relation recovers the needle: the decoded standout position equals
`p` and the self-check reports confirmed. -/
theorem grover_pipeline_correct (n p r : Nat)
    (hn : n = 2 ∨ n = 3 ∨ n = 4 ∨ n = 5) (hp : p < 2 ^ n)
    (hr : Grover.repeatSpec n r) :
    Grover.resultsPosition (Grover.pipeline (oneHot (2 ^ n) p) r) = p ∧
    Grover.resultsConfirmed (Grover.needle_init (oneHot (2 ^ n) p)).1
      (Grover.pipeline (oneHot (2 ^ n) p) r) = true := by
  have hp1 := Real.pi_gt_3141592
  have hp2 := Real.pi_lt_3141593
  have hps := pi_sqrt_two_bounds
  rcases hn with rfl | rfl | rfl | rfl
  · have hx : Real.sqrt ((2 : ℝ) ^ (2 : Nat)) = 2 := by
      have h := sqrt_pow_even 1
      norm_num at h ⊢
      convert h using 2 <;> norm_num
    have hr1 : r = 1 := (repeatSpec_iff 2 r 1 _ hx
      (by push_cast; linarith) (by push_cast; linarith)).mp hr
    subst hr1
    rw [pipeline_closed 2 p hp 1]
    have hdec : ∀ q, q < 2 ^ 2 →
        Grover.resultsPosition (finalV 2 q (groverIterAB 2 1 (hQ ^ 2, hQ ^ 2)).1
          (groverIterAB 2 1 (hQ ^ 2, hQ ^ 2)).2) = q ∧
        Grover.resultsConfirmed (Grover.needle_init (oneHot (2 ^ 2) q)).1
          (finalV 2 q (groverIterAB 2 1 (hQ ^ 2, hQ ^ 2)).1
            (groverIterAB 2 1 (hQ ^ 2, hQ ^ 2)).2) = true := by decide!
    exact hdec p hp
  · have hx : Real.sqrt ((2 : ℝ) ^ (3 : Nat)) = 2 * Real.sqrt 2 := by
      have h := sqrt_pow_odd 1
      norm_num at h ⊢
      convert h using 2 <;> norm_num
    have hr1 : r = 2 := (repeatSpec_iff 3 r 2 _ hx
      (by push_cast; nlinarith [hps.1]) (by push_cast; nlinarith [hps.2])).mp hr
    subst hr1
    rw [pipeline_closed 3 p hp 2]
    have hdec : ∀ q, q < 2 ^ 3 →
        Grover.resultsPosition (finalV 3 q (groverIterAB 3 2 (hQ ^ 3, hQ ^ 3)).1
          (groverIterAB 3 2 (hQ ^ 3, hQ ^ 3)).2) = q ∧
        Grover.resultsConfirmed (Grover.needle_init (oneHot (2 ^ 3) q)).1
          (finalV 3 q (groverIterAB 3 2 (hQ ^ 3, hQ ^ 3)).1
            (groverIterAB 3 2 (hQ ^ 3, hQ ^ 3)).2) = true := by decide!
    exact hdec p hp
  · have hx : Real.sqrt ((2 : ℝ) ^ (4 : Nat)) = 4 := by
      have h := sqrt_pow_even 2
      norm_num at h ⊢
      convert h using 2 <;> norm_num
    have hr1 : r = 3 := (repeatSpec_iff 4 r 3 _ hx
      (by push_cast; linarith) (by push_cast; linarith)).mp hr
    subst hr1
    rw [pipeline_closed 4 p hp 3]
    have hdec : ∀ q, q < 2 ^ 4 →
        Grover.resultsPosition (finalV 4 q (groverIterAB 4 3 (hQ ^ 4, hQ ^ 4)).1
          (groverIterAB 4 3 (hQ ^ 4, hQ ^ 4)).2) = q ∧
        Grover.resultsConfirmed (Grover.needle_init (oneHot (2 ^ 4) q)).1
          (finalV 4 q (groverIterAB 4 3 (hQ ^ 4, hQ ^ 4)).1
            (groverIterAB 4 3 (hQ ^ 4, hQ ^ 4)).2) = true := by decide!
    exact hdec p hp
  · have hx : Real.sqrt ((2 : ℝ) ^ (5 : Nat)) = 4 * Real.sqrt 2 := by
      have h := sqrt_pow_odd 2
      norm_num at h ⊢
      convert h using 2 <;> norm_num
    have hr1 : r = 4 := (repeatSpec_iff 5 r 4 _ hx
      (by push_cast; nlinarith [hps.1]) (by push_cast; nlinarith [hps.2])).mp hr
    subst hr1
    rw [pipeline_closed 5 p hp 4]
    have hdec : ∀ q, q < 2 ^ 5 →
        Grover.resultsPosition (finalV 5 q (groverIterAB 5 4 (hQ ^ 5, hQ ^ 5)).1
          (groverIterAB 5 4 (hQ ^ 5, hQ ^ 5)).2) = q ∧
        Grover.resultsConfirmed (Grover.needle_init (oneHot (2 ^ 5) q)).1
          (finalV 5 q (groverIterAB 5 4 (hQ ^ 5, hQ ^ 5)).1
            (groverIterAB 5 4 (hQ ^ 5, hQ ^ 5)).2) = true := by decide!
    exact hdec p hp
/-- C1 witness: length 4, needle at position 1, one iteration. -/
theorem grover_pipeline_correct_witness :
    ((2 = 2 ∨ 2 = 3 ∨ 2 = 4 ∨ 2 = 5) ∧ 1 < 2 ^ 2 ∧ Grover.repeatSpec 2 1) ∧
    (Grover.resultsPosition (Grover.pipeline (oneHot (2 ^ 2) 1) 1) = 1 ∧
     Grover.resultsConfirmed (Grover.needle_init (oneHot (2 ^ 2) 1)).1
       (Grover.pipeline (oneHot (2 ^ 2) 1) 1) = true) := by
  have hx : Real.sqrt ((2 : ℝ) ^ (2 : Nat)) = 2 := by
    have h := sqrt_pow_even 1
    norm_num at h ⊢
    convert h using 2 <;> norm_num
  have hrs : Grover.repeatSpec 2 1 := by
    unfold Grover.repeatSpec
    rw [hx]
    constructor
    · push_cast
      linarith [Real.pi_gt_3141592]
    · push_cast
      linarith [Real.pi_lt_3141593]
  exact ⟨⟨by decide, by decide, hrs⟩,
    grover_pipeline_correct 2 1 1 (by decide) (by decide) hrs⟩
